import Mathlib

set_option autoImplicit false

/-!
Verification development for the proto-mav dialect compiler
(`build/parser.rs`, `build/proto.rs`, `build/mavlink.rs`).

The Rust source is shallowly embedded: each Rust function used by the
claims is translated into an executable Lean definition over `Nat`/`Int`
(machine integers are modelled with explicit `% 2^w` arithmetic where
overflow matters), and the claimed properties are proved or refuted
about those definitions.
-/

namespace ProtoMav

/-! ## Type and width model (`MavType`, parser.rs lines 966-1192) -/

/-- Embedding of `enum MavType` from parser.rs.  The `Box<MavType>` of the
`Array` variant becomes direct structural recursion; the array length
`usize` becomes `Nat`. -/
inductive MavType : Type
  | UInt8MavlinkVersion
  | UInt8
  | UInt16
  | UInt32
  | UInt64
  | Int8
  | Int16
  | Int32
  | Int64
  | Char
  | Float
  | Double
  | Array (t : MavType) (size : Nat)
  deriving DecidableEq, Repr

namespace MavType

/-- Embedding of `MavType::len` (parser.rs 1088-1097): the wire byte size. -/
def len : MavType → Nat
  | UInt8MavlinkVersion | UInt8 | Int8 | Char => 1
  | UInt16 | Int16 => 2
  | UInt32 | Int32 | Float => 4
  | UInt64 | Int64 | Double => 8
  | Array t size => t.len * size

/-- Embedding of `MavType::order_len` (parser.rs 1100-1109): the width used
for field ordering; for an array this is the element type's `len`. -/
def order_len : MavType → Nat
  | UInt8MavlinkVersion | UInt8 | Int8 | Char => 1
  | UInt16 | Int16 => 2
  | UInt32 | Int32 | Float => 4
  | UInt64 | Int64 | Double => 8
  | Array t _ => t.len

/-- Embedding of `MavType::primitive_type` (parser.rs 1112-1129): the
dialect spelling of the primitive type, used for the extra-CRC digest. -/
def primitive_type : MavType → String
  | UInt8MavlinkVersion => "uint8_t"
  | UInt8 => "uint8_t"
  | Int8 => "int8_t"
  | Char => "char"
  | UInt16 => "uint16_t"
  | Int16 => "int16_t"
  | UInt32 => "uint32_t"
  | Int32 => "int32_t"
  | Float => "float"
  | UInt64 => "uint64_t"
  | Int64 => "int64_t"
  | Double => "double"
  | Array t _ => t.primitive_type

end MavType

/-- Rust's `MavType::compare` (parser.rs 1188-1191) compares negated
`order_len`s, i.e. sorts wider fields first.  A Rust stable sort under
that comparator keeps `a` before `b` iff the comparator does not return
Greater, i.e. iff `b`'s width does not exceed `a`'s. -/
def wireLe (a b : MavType) : Bool :=
  b.order_len ≤ a.order_len

/-! ## IR structures (parser.rs lines 21-27, 447-456, 607-625, 783-794) -/

/-- Embedding of `struct MavEnumEntry` (parser.rs 607-615).  The optional
`u32` value becomes `Option Nat`; descriptions and params are carried for
completeness of the record. -/
structure MavEnumEntry : Type where
  value : Option Nat := none
  name : String := ""
  raw_name : String := ""
  description : Option String := none
  params : Option (List String) := none
  deriving DecidableEq, Repr

/-- Embedding of `struct MavEnum` (parser.rs 447-456).  `bitfield` holds
the Rust width type name when some field marked the enum as a bitmask. -/
structure MavEnum : Type where
  name : String := ""
  raw_name : String := ""
  description : Option String := none
  entries : List MavEnumEntry := []
  bitfield : Option String := none
  deriving DecidableEq, Repr

/-- Embedding of `struct MavField` (parser.rs 783-794). -/
structure MavField : Type where
  mavtype : MavType := MavType.UInt8
  name : String := ""
  raw_name : String := ""
  description : Option String := none
  enumtype : Option String := none
  raw_enumtype : Option String := none
  display : Option String := none
  is_extension : Bool := false
  deriving DecidableEq, Repr

/-- Embedding of `struct MavMessage` (parser.rs 617-625). -/
structure MavMessage : Type where
  id : Nat := 0
  name : String := ""
  raw_name : String := ""
  description : Option String := none
  fields : List MavField := []
  deriving DecidableEq, Repr

/-- Embedding of `struct MavProfile` (parser.rs 21-27). -/
structure MavProfile : Type where
  includes : List String := []
  messages : List MavMessage := []
  enums : List MavEnum := []
  deriving DecidableEq, Repr

/-- The sort relation on fields induced by the comparator: Rust's stable
`sort_by` is modelled by `List.insertionSort` under this relation — every
stable sort of the same list under the same total preorder produces the
same output, so the choice of stable sorting algorithm is immaterial. -/
def wireOrder (a b : MavField) : Prop :=
  wireLe a.mavtype b.mavtype = true

instance : DecidableRel wireOrder := fun a b =>
  instDecidableEqBool (wireLe a.mavtype b.mavtype) true

instance : IsTotal MavField wireOrder :=
  ⟨fun a b => by
    simp only [wireOrder, wireLe, decide_eq_true_eq]
    omega⟩

instance : IsTrans MavField wireOrder :=
  ⟨fun a b c hab hbc => by
    simp only [wireOrder, wireLe, decide_eq_true_eq] at hab hbc ⊢
    omega⟩

/-! ## Name sanitizer (`rusty_name`, parser.rs 1258-1268) -/

/-- Capitalize the first character of a list of characters (the
`v[0] = v[0].to_uppercase()` step of `rusty_name`; Rust panics on an
empty segment, here the empty list maps to itself). -/
def capitalize : List Char → List Char
  | [] => []
  | c :: cs => c.toUpper :: cs

/-- The split of a character list at underscores (Rust's
`name.split("_")` on the character level): consecutive or trailing
underscores produce empty segments, exactly as in Rust. -/
def splitUnderscore : List Char → List (List Char)
  | [] => [[]]
  | c :: cs =>
    match splitUnderscore cs with
    | seg :: rest =>
      if c = '_' then [] :: seg :: rest else (c :: seg) :: rest
    | [] => [[c]]

/-- Embedding of `rusty_name` (parser.rs 1258-1268): split on underscore,
lowercase each segment, capitalize its first character, and concatenate. -/
def rusty_name (s : String) : String :=
  String.mk (((splitUnderscore s.data).map fun seg =>
    capitalize (seg.map Char.toLower)).flatten)

/-! ## CRC-16/MCRF4XX (the `crc_any::CRCu16::crc16mcrf4cc` digest)

Polynomial 0x1021 reflected (0x8408), initial value 0xFFFF, reflected
input/output, no final xor.  The 16-bit accumulator is a `Nat` kept below
2^16 by construction. -/

/-- Process one bit of the reflected CRC-16: shift right, conditionally
xoring with the reversed polynomial 0x8408. -/
def crcBit (c : Nat) : Nat :=
  if c % 2 == 1 then (c >>> 1) ^^^ 0x8408 else c >>> 1

/-- Process one input byte: xor into the low bits, then eight bit steps. -/
def crcByte (c b : Nat) : Nat :=
  crcBit (crcBit (crcBit (crcBit (crcBit (crcBit (crcBit (crcBit (c ^^^ b % 256))))))))

/-- Digest a list of bytes into a running CRC state. -/
def crcDigest (c : Nat) (bs : List Nat) : Nat :=
  bs.foldl crcByte c

/-- ASCII bytes of a string (all names digested by the generator are
ASCII, for which the code points equal the UTF-8 bytes). -/
def strBytes (s : String) : List Nat :=
  s.data.map Char.toNat

/-- CRC-16/MCRF4XX of a byte list: init 0xFFFF, no final xor. -/
def crc16mcrf4xx (bs : List Nat) : Nat :=
  crcDigest 0xFFFF bs

/-! ## Compatibility digest (`extra_crc`, parser.rs 1626-1654) -/

/-- One field's contribution to the extra CRC (the body of the `for field
in &f` loop of `extra_crc`, parser.rs 1638-1650): primitive type name,
space, field name with the code's mavtype-to-type replacement, space, and
for arrays one raw byte of the length (`size as u8`). -/
def extraCrcField (c : Nat) (field : MavField) : Nat :=
  let c := crcDigest c (strBytes field.mavtype.primitive_type)
  let c := crcDigest c (strBytes " ")
  let c := if field.name == "mavtype"
    then crcDigest c (strBytes "type")
    else crcDigest c (strBytes field.name)
  let c := crcDigest c (strBytes " ")
  match field.mavtype with
  | MavType.Array _ size => crcByte c (size % 256)
  | _ => c

/-- Embedding of `extra_crc` (parser.rs 1626-1654).  Note that the code
digests `msg.name` — the sanitized CamelCase identifier produced by
`rusty_name` — not `msg.raw_name`, then filters out extension fields,
stable-sorts by descending width, digests each field, and folds the
16-bit CRC to one byte. -/
def extra_crc (msg : MavMessage) : Nat :=
  let c := crcDigest 0xFFFF (strBytes msg.name)
  let c := crcDigest c (strBytes " ")
  let f := (msg.fields.filter fun f => !f.is_extension).insertionSort
    wireOrder
  let c := f.foldl extraCrcField c
  ((c &&& 0xFF) ^^^ (c >>> 8)) % 256

/-- One field's contribution to the extra CRC as the specification words
it: identical to `extraCrcField` except that the field's original
declared name (`field.raw_name`) is digested. -/
def extraCrcFieldSpec (c : Nat) (field : MavField) : Nat :=
  let c := crcDigest c (strBytes field.mavtype.primitive_type)
  let c := crcDigest c (strBytes " ")
  let c := crcDigest c (strBytes field.raw_name)
  let c := crcDigest c (strBytes " ")
  match field.mavtype with
  | MavType.Array _ size => crcByte c (size % 256)
  | _ => c

/-- The extra CRC as the specification words it: identical to
`extra_crc` except that the message's original declared name
(`msg.raw_name`) and each field's original declared name
(`field.raw_name`) are digested.  Used to compare the source against the
claim. -/
def extraCrcSpec (msg : MavMessage) : Nat :=
  let c := crcDigest 0xFFFF (strBytes msg.raw_name)
  let c := crcDigest c (strBytes " ")
  let f := (msg.fields.filter fun f => !f.is_extension).insertionSort
    wireOrder
  let c := f.foldl extraCrcFieldSpec c
  ((c &&& 0xFF) ^^^ (c >>> 8)) % 256

/-! ## Field layout planner (parse_profile message-close block, parser.rs 1479-1497)

On closing a message element the parser splits the declared fields into
the non-extension and extension groups (two `retain` passes, each
preserving relative order), stable-sorts the non-extension group with
`sort_by(|a, b| a.mavtype.compare(&b.mavtype))` (descending width), and
rebuilds the field list as sorted non-extension fields followed by the
extension fields.  Rust's stable `sort_by` is modelled by
`List.insertionSort` under the comparator's "not greater" relation
`wireOrder`. -/
def planFields (fields : List MavField) : List MavField :=
  (fields.filter fun f => !f.is_extension).insertionSort wireOrder
    ++ fields.filter fun f => f.is_extension

/-- Embedding of the encoded-length computation of
`MavMessage::emit_name_types` (parser.rs 635-657):
`encoded_payload_len += field.mavtype.len()` over the message's fields,
emitted as the `ENCODED_LEN` constant. -/
def encodedLen (fields : List MavField) : Nat :=
  fields.foldl (fun acc f => acc + f.mavtype.len) 0

/-! ## Enum value assignment (`MavEnum::has_enum_values` / `emit_defs`,
parser.rs 459-487; the copy in mavlink.rs 366-394 is textually identical) -/

/-- Embedding of `MavEnum::has_enum_values`: true iff every entry carries
an explicit value. -/
def has_enum_values (e : MavEnum) : Bool :=
  e.entries.all fun x => x.value.isSome

/-- Embedding of the value selection of `MavEnum::emit_defs`: a counter
starts at 0; each entry is emitted with the counter value (counter then
incremented) when the enum does not have values on all entries, and with
its own `value.unwrap()` otherwise. -/
def emitDefValues (e : MavEnum) : List Nat :=
  (e.entries.foldl (fun acc entry =>
      if has_enum_values e then
        (acc.1 ++ [entry.value.getD 0], acc.2)
      else
        (acc.1 ++ [acc.2], acc.2 + 1))
    (([] : List Nat), 0)).1

/-- The union of all flag values of a bitmask enum: the generated
`bitflags!` struct's `all()` is the bitwise or of every declared
constant, whose values come from `emit_defs`. -/
def allBits (e : MavEnum) : Nat :=
  (emitDefValues e).foldl (fun a v => a ||| v) 0

/-- Name-based enum lookup: generated field readers reference the enum
type by its sanitized name (`MavField.enumtype` matches `MavEnum.name`). -/
def lookupEnum (enums : List MavEnum) (ename : String) : Option MavEnum :=
  enums.find? fun e => e.name == ename

/-! ## Byte-level serialization semantics

The generated `ser`/`deser` routines write and read fields with the
little-endian `bytes` primitives (`put_u16_le`, `get_u16_le`, ...),
emitted per type by `MavType::rust_writer` / `rust_reader`
(parser.rs 1021-1085) and wrapped per field by `MavField::rust_writer` /
`rust_reader` (parser.rs 843-904).  Bytes are `Nat`s below 256. -/

/-- Little-endian encoding of `v` into `w` bytes (the value is reduced
modulo 2^(8w), as the Rust cast-and-write does). -/
def toLE : Nat → Nat → List Nat
  | 0, _ => []
  | w + 1, v => v % 256 :: toLE w (v / 256)

/-- Little-endian decoding of a byte list. -/
def fromLE : List Nat → Nat
  | [] => 0
  | b :: bs => b + 256 * fromLE bs

/-- Two's-complement bit pattern of a signed value in `w` bytes (the
`put_iNN_le` write). -/
def encInt (w : Nat) (v : Int) : Nat :=
  (v % ((256 ^ w : Nat) : Int)).toNat

/-- Signed reinterpretation of a `w`-byte unsigned value (the
`get_iNN_le` read). -/
def decInt (w : Nat) (u : Nat) : Int :=
  if 2 * u < 256 ^ w then (u : Int) else (u : Int) - ((256 ^ w : Nat) : Int)

/-- Values of generated struct fields.  Unsigned integers, chars (code
points) and float bit patterns are `natv`; signed integers are `intv`;
arrays are `arrv`.  Floats are modelled by their IEEE bit patterns: the
generated code moves them with `put_f32_le`/`get_f32_le`, which preserve
bits exactly. -/
inductive MavValue : Type
  | natv (v : Nat)
  | intv (v : Int)
  | arrv (xs : List MavValue)

/-- Embedding of the writer side (`MavType::rust_writer`).  Unsigned
kinds, chars and floats write the little-endian bytes of the natural
value; signed kinds write the two's-complement bytes.  A signed kind
also accepts a `natv` because an enum field of signed primitive type is
written through an `as iNN` cast of its discriminant, whose byte image is
the same reduction modulo 2^(8w).  An array writes its elements in order
(`for val in &#val`).  A value of the wrong shape writes nothing; such
combinations cannot come from a well-typed generated struct and are
excluded by the domain predicates below. -/
def writeType : MavType → MavValue → List Nat
  | .UInt8, .natv v => toLE 1 v
  | .UInt8MavlinkVersion, .natv v => toLE 1 v
  | .Char, .natv v => toLE 1 v
  | .UInt16, .natv v => toLE 2 v
  | .UInt32, .natv v => toLE 4 v
  | .UInt64, .natv v => toLE 8 v
  | .Float, .natv v => toLE 4 v
  | .Double, .natv v => toLE 8 v
  | .Int8, .intv v => toLE 1 (encInt 1 v)
  | .Int16, .intv v => toLE 2 (encInt 2 v)
  | .Int32, .intv v => toLE 4 (encInt 4 v)
  | .Int64, .intv v => toLE 8 (encInt 8 v)
  | .Int8, .natv v => toLE 1 v
  | .Int16, .natv v => toLE 2 v
  | .Int32, .natv v => toLE 4 v
  | .Int64, .natv v => toLE 8 v
  | .Array t _, .arrv xs => (xs.map (writeType t ·)).flatten
  | _, _ => []

/-- Read `w` bytes little-endian, or `none` when fewer than `w` bytes
remain (the `bytes` crate panics in that situation; the generated
message-level reader always supplies a buffer of at least the encoded
length, which rules this out). -/
def readU (w : Nat) (buf : List Nat) : Option (Nat × List Nat) :=
  if w ≤ buf.length then some (fromLE (buf.take w), buf.drop w) else none

/-- Read `n` consecutive elements with the element reader `rd`,
threading the remaining buffer. -/
def readEls (rd : List Nat → Option (MavValue × List Nat)) :
    Nat → List Nat → Option (List MavValue × List Nat)
  | 0, buf => some ([], buf)
  | n + 1, buf =>
    match rd buf with
    | none => none
    | some (v, rest) => (readEls rd n rest).map fun p => (v :: p.1, p.2)

/-- Embedding of the reader side (`MavType::rust_reader`): scalar kinds
read their width little-endian (signed kinds reinterpreting in two's
complement), an array reads its declared number of elements in order
(both the Vec and the fixed-array emission read exactly `size`
elements). -/
def readType : MavType → List Nat → Option (MavValue × List Nat)
  | .UInt8, buf => (readU 1 buf).map fun p => (.natv p.1, p.2)
  | .UInt8MavlinkVersion, buf => (readU 1 buf).map fun p => (.natv p.1, p.2)
  | .Char, buf => (readU 1 buf).map fun p => (.natv p.1, p.2)
  | .UInt16, buf => (readU 2 buf).map fun p => (.natv p.1, p.2)
  | .UInt32, buf => (readU 4 buf).map fun p => (.natv p.1, p.2)
  | .UInt64, buf => (readU 8 buf).map fun p => (.natv p.1, p.2)
  | .Float, buf => (readU 4 buf).map fun p => (.natv p.1, p.2)
  | .Double, buf => (readU 8 buf).map fun p => (.natv p.1, p.2)
  | .Int8, buf => (readU 1 buf).map fun p => (.intv (decInt 1 p.1), p.2)
  | .Int16, buf => (readU 2 buf).map fun p => (.intv (decInt 2 p.1), p.2)
  | .Int32, buf => (readU 4 buf).map fun p => (.intv (decInt 4 p.1), p.2)
  | .Int64, buf => (readU 8 buf).map fun p => (.intv (decInt 8 p.1), p.2)
  | .Array t size, buf =>
    (readEls (fun b => readType t b) size buf).map fun p => (.arrv p.1, p.2)

/-! ## Field-level codec (`MavField::rust_writer` / `rust_reader`,
parser.rs 843-904) -/

/-- Decode failures of the generated `deser` routines.  `underflow`
models the `bytes` crate panic on a too-short buffer; `invalidEnum` and
`invalidFlag` are the `ParserError` variants of the generated code;
`stuck` marks field shapes for which the generator emits code that does
not compile (an unresolvable enum name, a display hint other than
bitmask, a bitmask or closed enum riding on a char or float primitive) —
no dialect in the repository produces them and they are outside every
claim's domain. -/
inductive DeserErr : Type
  | underflow
  | invalidEnum (enumType : String) (value : Nat)
  | invalidFlag (flagType : String) (value : Nat)
  | stuck
  deriving DecidableEq, Repr

/-- Embedding of `MavField::rust_writer` (parser.rs 843-868).  The three
emission branches — bits() of a bitmask, plain write of an array, `as`
cast of a closed enum, plain write otherwise — all write the field's
`mavtype` image of the stored value; the value-level coercions (`bits()`,
`as iNN`/`as uNN`) are absorbed by the modular reduction inside
`writeType`. -/
def serField (f : MavField) (v : MavValue) : List Nat :=
  writeType f.mavtype v

/-- The value-boxing step of `MavField::rust_reader` (parser.rs 871-904),
applied to the raw value produced by the type-level read.  A field with
an enum type and the bitmask display masks the raw value with the union
of all known flags and passes it through `from_bits` (which checks that
no unknown bit remains); a non-bitmask enum field of array type keeps
the raw array; a non-bitmask enum field of scalar type is looked up
among the enum's assigned values via `FromPrimitive` (a signed read
matches when it is nonnegative and its magnitude is an assigned value;
on failure the reported value is the `as u32` wrap of the raw read). -/
def boxField (enums : List MavEnum) (f : MavField) (v0 : MavValue) :
    Except DeserErr MavValue :=
  match f.enumtype with
  | none => .ok v0
  | some ename =>
    match f.display with
    | some dsp =>
      if dsp == "bitmask" then
        match v0 with
        | .natv n =>
          match lookupEnum enums ename with
          | none => .error .stuck
          | some e =>
            let m := n &&& allBits e
            if m &&& allBits e == m then .ok (.natv m)
            else .error (.invalidFlag ename m)
        | _ => .error .stuck
      else .error .stuck
    | none =>
      match f.mavtype with
      | .Array _ _ => .ok v0
      | _ =>
        match v0 with
        | .natv n =>
          match f.mavtype with
          | .Char | .Float | .Double => .error .stuck
          | _ =>
            match lookupEnum enums ename with
            | none => .error .stuck
            | some e =>
              if (emitDefValues e).contains n then .ok (.natv n)
              else .error (.invalidEnum ename n)
        | .intv i =>
          match lookupEnum enums ename with
          | none => .error .stuck
          | some e =>
            if 0 ≤ i ∧ (emitDefValues e).contains i.toNat then
              .ok (.natv i.toNat)
            else .error (.invalidEnum ename (i % (4294967296 : Int)).toNat)
        | .arrv _ => .error .stuck

/-- Embedding of the per-field reader emitted by `MavField::rust_reader`:
the field's wire type is read from the front of the buffer (a too-short
buffer panics, modelled as `underflow`), and the raw value is boxed by
`boxField`. -/
def deserField (enums : List MavEnum) (f : MavField) (buf : List Nat) :
    Except DeserErr (MavValue × List Nat) :=
  match readType f.mavtype buf with
  | none => .error .underflow
  | some (v0, rest) => (boxField enums f v0).map fun v => (v, rest)

/-! ## Message-level codec (`MavMessage::emit_serialize_vars` /
`emit_deserialize_vars`, parser.rs 670-722) -/

/-- Embedding of the generated `ser`: the fields' writes concatenated in
field order into the `_tmp` buffer. -/
def serMessage (m : MavMessage) (vals : List MavValue) : List Nat :=
  ((m.fields.zip vals).map fun p => serField p.1 p.2).flatten

/-- Sequential field reads of the generated `deser` body (the
`#(#deser_vars)*` block): each field reads from where the previous one
stopped; trailing unread bytes are ignored. -/
def deserFields (enums : List MavEnum) :
    List MavField → List Nat → Except DeserErr (List MavValue)
  | [], _ => .ok []
  | f :: fs, buf =>
    match deserField enums f buf with
    | .error e => .error e
    | .ok (v, rest) => (deserFields enums fs rest).map (v :: ·)

/-- Embedding of the generated `deser` (parser.rs 683-722): a message
with no fields returns the default value without touching the input;
otherwise, an input shorter than `ENCODED_LEN` is copied into a
zero-filled buffer of exactly `ENCODED_LEN` bytes before the fields are
decoded in order. -/
def deserMessage (enums : List MavEnum) (m : MavMessage) (input : List Nat) :
    Except DeserErr (List MavValue) :=
  if m.fields.isEmpty then .ok []
  else
    let encLen := encodedLen m.fields
    let buf := if input.length < encLen
      then input ++ List.replicate (encLen - input.length) 0
      else input
    deserFields enums m.fields buf

/-! ## Value domains

A value is in a wire type's domain when it is exactly representable by
that type: the stored Rust value round-trips through the written bytes.
These predicates bound the claims' "fields within their types' domains". -/

/-- Domain of a raw (non-enum) value of a given type. -/
def typeDomain : MavType → MavValue → Bool
  | .UInt8, .natv v => v < 256
  | .UInt8MavlinkVersion, .natv v => v < 256
  | .Char, .natv v => v < 256
  | .UInt16, .natv v => v < 256 ^ 2
  | .UInt32, .natv v => v < 256 ^ 4
  | .UInt64, .natv v => v < 256 ^ 8
  | .Float, .natv v => v < 256 ^ 4
  | .Double, .natv v => v < 256 ^ 8
  | .Int8, .intv v => -(128 : Int) ≤ v && v < 128
  | .Int16, .intv v => -((256 ^ 2 / 2 : Nat) : Int) ≤ v && v < ((256 ^ 2 / 2 : Nat) : Int)
  | .Int32, .intv v => -((256 ^ 4 / 2 : Nat) : Int) ≤ v && v < ((256 ^ 4 / 2 : Nat) : Int)
  | .Int64, .intv v => -((256 ^ 8 / 2 : Nat) : Int) ≤ v && v < ((256 ^ 8 / 2 : Nat) : Int)
  | .Array t n, .arrv xs => xs.length == n && xs.all (typeDomain t ·)
  | _, _ => false

/-- Upper bound for an enum discriminant stored in a scalar primitive:
the unsigned range for unsigned kinds, the nonnegative half for signed
kinds (so that reading back the written bytes yields the discriminant
again), and zero (empty domain) for kinds a closed enum cannot ride on. -/
def discCap : MavType → Nat
  | .UInt8 => 256 ^ 1
  | .UInt8MavlinkVersion => 256 ^ 1
  | .UInt16 => 256 ^ 2
  | .UInt32 => 256 ^ 4
  | .UInt64 => 256 ^ 8
  | .Int8 => 256 ^ 1 / 2
  | .Int16 => 256 ^ 2 / 2
  | .Int32 => 256 ^ 4 / 2
  | .Int64 => 256 ^ 8 / 2
  | _ => 0

/-- Whether a scalar kind is one of the unsigned integer kinds (on which
bitmask enums ride). -/
def isUnsignedKind : MavType → Bool
  | .UInt8 | .UInt8MavlinkVersion | .UInt16 | .UInt32 | .UInt64 => true
  | _ => false

/-- Whether a scalar kind is one of the signed integer kinds (read in
two's complement and boxed through `FromPrimitive::from_iNN`). -/
def isSignedKind : MavType → Bool
  | .Int8 | .Int16 | .Int32 | .Int64 => true
  | _ => false

/-- Domain of a field's stored value, taking the enum boxing into
account: a bitmask field stores a flag set (a submask of the union of
known flags) in an unsigned primitive; a closed-enum scalar field stores
an assigned discriminant of the resolved enum; an enum array field and a
plain field store a raw value of the wire type. -/
def fieldDomain (enums : List MavEnum) (f : MavField) (v : MavValue) : Bool :=
  match f.enumtype with
  | none => typeDomain f.mavtype v
  | some ename =>
    match f.display with
    | some dsp =>
      dsp == "bitmask" &&
      isUnsignedKind f.mavtype &&
      (match lookupEnum enums ename, v with
       | some e, .natv n => n &&& allBits e == n && n < discCap f.mavtype
       | _, _ => false)
    | none =>
      match f.mavtype with
      | .Array _ _ => typeDomain f.mavtype v
      | _ =>
        match lookupEnum enums ename, v with
        | some e, .natv n => (emitDefValues e).contains n && n < discCap f.mavtype
        | _, _ => false

/-! ## Enum merging (`merge_enums`, parser.rs 1521-1554) -/

/-- Embedding of the local helper `enum_contains`: true iff some entry
carries the explicit value `val` (entries without a value are skipped). -/
def enum_contains (entries : List MavEnumEntry) (val : Nat) : Bool :=
  entries.any fun e => e.value == some val

/-- The entries an included enum `e2` contributes to a local enum with
entry list `local_entries` (the filter inside `merge_enums`): included
entries whose explicit value — defaulting to 0 when absent
(`e.value.unwrap_or(0)`) — is not already an explicit value locally. -/
def missingFrom (local_entries : List MavEnumEntry) (e2 : MavEnum) :
    List MavEnumEntry :=
  e2.entries.filter fun e => !enum_contains local_entries (e.value.getD 0)

/-- The entries contributed to the local enum named `nm` with entry list
`local_entries` by all included modules (the two inner loops of
`merge_enums`): each included enum sharing the canonical name contributes
its entries filtered through `missingFrom` against the local entry list
as it was before the merge. -/
def mergeContrib (modules : List (String × MavProfile))
    (includes : List String) (nm : String)
    (local_entries : List MavEnumEntry) : List MavEnumEntry :=
  includes.flatMap fun inc =>
    ((modules.lookup inc).getD {}).enums.flatMap fun e2 =>
      if nm == e2.name then missingFrom local_entries e2 else []

/-- One local enum after the merge: its original entries followed by the
contributed entries (the `enum_val.entries.append(&mut missing)` step). -/
def mergeEnum (modules : List (String × MavProfile))
    (includes : List String) (ev : MavEnum) : MavEnum :=
  { ev with entries := ev.entries ++
      mergeContrib modules includes ev.name ev.entries }

/-- Embedding of `merge_enums` (parser.rs 1521-1554): every local enum is
extended by the entries contributed by the same-named enums of every
included module, all filtered against the local entry list as it was
before the merge (the `missing` vector is only appended after the inner
loops).  A missing included module makes the code panic, modelled by
`none`. -/
def merge_enums (profile : MavProfile)
    (modules : List (String × MavProfile)) : Option MavProfile :=
  if profile.includes.all (fun inc => ((modules.lookup inc).isSome : Bool))
  then some { profile with
    enums := profile.enums.map (mergeEnum modules profile.includes) }
  else none

/-! ## Module resolution (`generate`, parser.rs 1558-1619)

The I/O of `generate` (file open, output files, rustfmt) is abstracted
away: the dialect directory becomes a total map from file name to the
profile its parse produces, and the side effects that matter to the
claims — which modules are looked up in and inserted into the cache, and
which files are ingested — are made explicit.  Recursion over the
include graph is bounded by fuel; the real code's behavior on any finite
run is the fuel-indexed limit. -/

/-- Modelled from the spec: the module-name sanitizer `to_module_name`
lives in `build/util.rs`, which is not among the provided sources; only
its callers are.  Per the spec the codec and schema units are
"addressable by the same module name", the module name is used as the
generated Rust module identifier and as the schema package name, so it
is the definition file's stem — the file name with its final ".xml"
extension removed — lowercased (a dot cannot appear in a Rust
identifier; every caller passes file names like "common.xml" and emits
module "common"). -/
def to_module_name (file : String) : String :=
  let cs := file.data
  let stem := if cs.contains '.'
    then (((cs.reverse.dropWhile (· ≠ '.')).drop 1).reverse)
    else cs
  String.mk (stem.map Char.toLower)

/-- Cache insertion: `HashMap::insert` keyed by the raw definition file
name (`definition_file.to_string_lossy()`), replacing any entry with the
same key. -/
def cacheInsert (cache : List (String × MavProfile)) (key : String)
    (p : MavProfile) : List (String × MavProfile) :=
  (key, p) :: cache.filter fun kv => kv.1 ≠ key

/-- Embedding of `generate` (parser.rs 1558-1619), restricted to its
cache discipline.  State is the module cache together with the list of
files ingested so far (in ingestion order).  A call first checks the
cache under `to_module_name(definition_file)` and returns immediately on
a hit; otherwise it parses the file (`fs`), inserts the profile under
the raw file name, records the ingestion, and recurses into the
profile's includes.  (`merge_enums` is then run on a local copy for
emission; the cache keeps the unmerged profile and is unaffected.) -/
def generateM (fs : String → MavProfile) :
    Nat → String → List (String × MavProfile) × List String →
    List (String × MavProfile) × List String
  | 0, _, st => st
  | fuel + 1, file, (cache, log) =>
    if ((cache.lookup (to_module_name file)).isSome : Bool) then (cache, log)
    else
      let profile := fs file
      let st := (cacheInsert cache file profile, log ++ [file])
      profile.includes.foldl (fun st inc => generateM fs fuel inc st) st

/-! ## Schema backend enum emission (`MavEnum::emit_proto`,
proto.rs 36-145)

The text written to the .proto stream is abstracted to the sequence of
enumerant declarations it contains: name, numeric value, and whether the
line was commented out (values with the top bit set are emitted behind
a comment, and once one entry is commented every later entry is too —
the flag is never reset). -/

/-- One emitted schema enumerant. -/
structure ProtoEntry : Type where
  name : String
  value : Nat
  commented : Bool
  deriving DecidableEq, Repr

/-- The comparator of the entry sort in `emit_proto` (proto.rs 54-69) as
a boolean "not greater" relation: unvalued entries sort after valued
ones, valued entries by value, unvalued pairs tie. -/
def protoSortLe (a b : MavEnumEntry) : Bool :=
  match a.value, b.value with
  | none, none => true
  | none, some _ => false
  | some _, none => true
  | some x, some y => x ≤ y

/-- The entry sort of the schema backend as a relation, for
`List.insertionSort` (again: any stable sort under the same total
preorder gives the same output as Rust's stable `sort_by`). -/
def protoOrder (a b : MavEnumEntry) : Prop :=
  protoSortLe a b = true

instance : DecidableRel protoOrder := fun a b =>
  instDecidableEqBool (protoSortLe a b) true

/-- The bit-position scan of `emit_proto` (proto.rs 99-108): the first
i in 1..=32 with `v >> (i-1) == 1`.  (This finds the 1-based position of
the highest set bit of any value below 2^32, so the subsequent
"not a power of 2" error is unreachable for genuine u32 values.) -/
def findBit (v : Nat) : Option Nat :=
  (List.range 32).findSome? fun j =>
    if v >>> j == 1 then some (j + 1) else none

/-- Largest explicit entry value (`max_val`, proto.rs 71-82). -/
def protoMaxVal (entries : List MavEnumEntry) : Nat :=
  entries.foldl (fun m f => match f.value with
    | some a => if a > m then a else m
    | none => m) 0

/-- Whether some entry carries explicit value 0 (`has_zero`). -/
def protoHasZero (entries : List MavEnumEntry) : Bool :=
  entries.any fun f => f.value == some 0

/-- Embedding of `MavEnum::emit_proto` (proto.rs 36-145), returning the
emitted enumerant sequence.  Entries are sorted by `protoSortLe`; when
the first entry is emitted and no explicit zero ∃ but some nonzero
explicit value does, a placeholder `<RAW_NAME>_UNDEFINED = 0` marked as
unused by MavLink is written first; a bitfield enum additionally runs the
bit scan on each entry value, failing when the scan finds nothing for a
nonzero value; values at or above 2^31 flip the sticky comment flag.
An unvalued entry is emitted with value `max_val + i` (its sorted
position added to the maximum explicit value).  `protoStep` is the loop
body for one (position, entry) pair; `emitProtoEnum` folds it over the
sorted entries. -/
def protoStep (raw_name : String) (bitfield : Bool) (has_zero : Bool)
    (max_val : Nat) (acc : Except String (List ProtoEntry × Bool))
    (p : Nat × MavEnumEntry) : Except String (List ProtoEntry × Bool) :=
  match acc with
  | .error msg => .error msg
  | .ok (out, commented) =>
    let i := p.1
    let field := p.2
    let out := if i == 0 && !has_zero && decide (max_val ≠ 0)
      then out ++ [⟨raw_name ++ "_UNDEFINED", 0, false⟩]
      else out
    if bitfield ∧ (findBit (field.value.getD 0)).isNone ∧
        field.value.getD 0 ≠ 0 then
      .error "Invalid bitfield, not a power of 2."
    else
      let val := field.value.getD (max_val + i)
      let commented := commented || decide (2 ^ 31 ≤ val)
      .ok (out ++ [⟨field.raw_name, val, commented⟩], commented)

def emitProtoEnum (e : MavEnum) : Except String (List ProtoEntry) :=
  let sorted := e.entries.insertionSort protoOrder
  (sorted.enum.foldl
    (protoStep e.raw_name e.bitfield.isSome (protoHasZero sorted)
      (protoMaxVal sorted))
    (.ok ([], false))).map Prod.fst

/-! ## Concrete dialect artifacts

Concrete inputs used to settle the claims: the HEARTBEAT message of the
standard dialect (processed by this repository's build), the claim's own
HEARTBEAT variant, and small profiles exercising the merge, cache,
schema-enum and decode paths. -/

/-- The HEARTBEAT message of common.xml as `parse_profile` ingests it
(fields listed in declared order; the planner and `extra_crc` sort on
their own).  Note `message.name` is the `rusty_name` image of the
declared name and the declared field name "type" is stored as
"mavtype". -/
def heartbeat : MavMessage :=
  { id := 0, name := "Heartbeat", raw_name := "HEARTBEAT",
    fields := [
      { mavtype := .UInt8, name := "mavtype", raw_name := "type",
        enumtype := some "MavType", raw_enumtype := some "MAV_TYPE" },
      { mavtype := .UInt8, name := "autopilot", raw_name := "autopilot",
        enumtype := some "MavAutopilot",
        raw_enumtype := some "MAV_AUTOPILOT" },
      { mavtype := .UInt8, name := "base_mode", raw_name := "base_mode",
        enumtype := some "MavModeFlag",
        raw_enumtype := some "MAV_MODE_FLAG", display := some "bitmask" },
      { mavtype := .UInt32, name := "custom_mode",
        raw_name := "custom_mode" },
      { mavtype := .UInt8, name := "system_status",
        raw_name := "system_status", enumtype := some "MavState",
        raw_enumtype := some "MAV_STATE" },
      { mavtype := .UInt8MavlinkVersion, name := "mavlink_version",
        raw_name := "mavlink_version" }
    ] }

/-- HEARTBEAT's custom_mode field. -/
def hbFCustom : MavField :=
  { mavtype := .UInt32, name := "custom_mode", raw_name := "custom_mode" }

/-- HEARTBEAT's type field (stored under the sanitized name "mavtype"). -/
def hbFType : MavField :=
  { mavtype := .UInt8, name := "mavtype", raw_name := "type",
    enumtype := some "MavType", raw_enumtype := some "MAV_TYPE" }

/-- HEARTBEAT's autopilot field. -/
def hbFAuto : MavField :=
  { mavtype := .UInt8, name := "autopilot", raw_name := "autopilot",
    enumtype := some "MavAutopilot", raw_enumtype := some "MAV_AUTOPILOT" }

/-- HEARTBEAT's base_mode field (bitmask display). -/
def hbFBase : MavField :=
  { mavtype := .UInt8, name := "base_mode", raw_name := "base_mode",
    enumtype := some "MavModeFlag", raw_enumtype := some "MAV_MODE_FLAG",
    display := some "bitmask" }

/-- HEARTBEAT's system_status field. -/
def hbFStatus : MavField :=
  { mavtype := .UInt8, name := "system_status",
    raw_name := "system_status", enumtype := some "MavState",
    raw_enumtype := some "MAV_STATE" }

/-- HEARTBEAT's mavlink_version field. -/
def hbFVers : MavField :=
  { mavtype := .UInt8MavlinkVersion, name := "mavlink_version",
    raw_name := "mavlink_version" }

/-- The declared fields of claim C5's HEARTBEAT scenario, which gives
base_mode the type uint32_t. -/
def heartbeatClaimFields : List MavField := [
  { mavtype := .UInt8, name := "mavtype", raw_name := "type",
    enumtype := some "MavType" },
  { mavtype := .UInt8, name := "autopilot", raw_name := "autopilot" },
  { mavtype := .UInt32, name := "base_mode", raw_name := "base_mode",
    enumtype := some "MavModeFlag", display := some "bitmask" },
  { mavtype := .UInt32, name := "custom_mode", raw_name := "custom_mode" },
  { mavtype := .UInt8, name := "system_status",
    raw_name := "system_status" },
  { mavtype := .UInt8MavlinkVersion, name := "mavlink_version",
    raw_name := "mavlink_version" }]

/-- A fragment of the MAV_TYPE enum (all entries explicitly valued). -/
def mavTypeEnum : MavEnum :=
  { name := "MavType", raw_name := "MAV_TYPE",
    entries := [
      { value := some 0, name := "Generic", raw_name := "MAV_TYPE_GENERIC" },
      { value := some 1, name := "FixedWing",
        raw_name := "MAV_TYPE_FIXED_WING" },
      { value := some 2, name := "Quadrotor",
        raw_name := "MAV_TYPE_QUADROTOR" }] }

/-- A fragment of the MAV_AUTOPILOT enum. -/
def mavAutopilotEnum : MavEnum :=
  { name := "MavAutopilot", raw_name := "MAV_AUTOPILOT",
    entries := [
      { value := some 0, name := "Generic",
        raw_name := "MAV_AUTOPILOT_GENERIC" },
      { value := some 3, name := "Ardupilotmega",
        raw_name := "MAV_AUTOPILOT_ARDUPILOTMEGA" }] }

/-- The MAV_MODE_FLAG bitmask enum (marked by `update_enums` because the
base_mode field carries the bitmask display hint). -/
def mavModeFlagEnum : MavEnum :=
  { name := "MavModeFlag", raw_name := "MAV_MODE_FLAG",
    bitfield := some "u8",
    entries := [
      { value := some 128, name := "SafetyArmed",
        raw_name := "MAV_MODE_FLAG_SAFETY_ARMED" },
      { value := some 64, name := "ManualInputEnabled",
        raw_name := "MAV_MODE_FLAG_MANUAL_INPUT_ENABLED" },
      { value := some 32, name := "HilEnabled",
        raw_name := "MAV_MODE_FLAG_HIL_ENABLED" },
      { value := some 16, name := "StabilizeEnabled",
        raw_name := "MAV_MODE_FLAG_STABILIZE_ENABLED" },
      { value := some 8, name := "GuidedEnabled",
        raw_name := "MAV_MODE_FLAG_GUIDED_ENABLED" },
      { value := some 4, name := "AutoEnabled",
        raw_name := "MAV_MODE_FLAG_AUTO_ENABLED" },
      { value := some 2, name := "TestEnabled",
        raw_name := "MAV_MODE_FLAG_TEST_ENABLED" },
      { value := some 1, name := "CustomModeEnabled",
        raw_name := "MAV_MODE_FLAG_CUSTOM_MODE_ENABLED" }] }

/-- A fragment of the MAV_STATE enum. -/
def mavStateEnum : MavEnum :=
  { name := "MavState", raw_name := "MAV_STATE",
    entries := [
      { value := some 0, name := "Uninit", raw_name := "MAV_STATE_UNINIT" },
      { value := some 3, name := "Standby",
        raw_name := "MAV_STATE_STANDBY" }] }

/-- The enums the HEARTBEAT field readers resolve against. -/
def hbEnums : List MavEnum :=
  [mavTypeEnum, mavAutopilotEnum, mavModeFlagEnum, mavStateEnum]

/-- HEARTBEAT with its fields in planned wire order, as the profile
stores it after the message-close block of `parse_profile`. -/
def heartbeatWire : MavMessage :=
  { heartbeat with fields := planFields heartbeat.fields }

/-- The field values of the specification's serialization scenario:
custom_mode 5, type Quadrotor(2), autopilot Ardupilotmega(3),
base_mode 0x59, system_status Standby(3), mavlink_version 3 — listed in
wire order to match `heartbeatWire.fields`. -/
def hbVals : List MavValue :=
  [.natv 5, .natv 2, .natv 3, .natv 0x59, .natv 3, .natv 3]

/-- An enum whose entries all lack explicit values (exercises the
placeholder condition of the schema backend). -/
def enAllNone : MavEnum :=
  { name := "F", raw_name := "F",
    entries := [{ name := "A", raw_name := "A" },
                { name := "B", raw_name := "B" }] }

/-- An enum with explicit nonzero values only. -/
def enNoZero : MavEnum :=
  { name := "G", raw_name := "G",
    entries := [{ name := "A", raw_name := "A", value := some 1 },
                { name := "B", raw_name := "B", value := some 5 }] }

/-- An enum whose single entry has value 1 — in particular no entry is
assigned value 0. -/
def enum9 : MavEnum :=
  { name := "E9", raw_name := "E9",
    entries := [{ name := "One", raw_name := "ONE", value := some 1 }] }

/-- An enum-typed array field referencing enum9. -/
def fld9 : MavField :=
  { mavtype := .Array .UInt8 2, name := "arr", raw_name := "arr",
    enumtype := some "E9" }

/-- An enum-typed scalar field referencing enum9. -/
def fld9s : MavField :=
  { mavtype := .UInt8, name := "x", raw_name := "x",
    enumtype := some "E9" }

/-- An enum-typed scalar field riding enum9 on a signed primitive. -/
def fld9i : MavField :=
  { mavtype := .Int8, name := "y", raw_name := "y",
    enumtype := some "E9" }

/-- A two-byte message whose trailing field is enum-typed with enum9. -/
def msg4 : MavMessage :=
  { id := 1, name := "M4", raw_name := "M4",
    fields := [
      { mavtype := .UInt8, name := "a", raw_name := "a" },
      { mavtype := .UInt8, name := "b", raw_name := "b",
        enumtype := some "E9" }] }

/-- An included enum with one unvalued entry. -/
def includedEnumE : MavEnum :=
  { name := "E", raw_name := "E",
    entries := [{ name := "X", raw_name := "X" }] }

/-- A profile including "inc.xml" and declaring an empty enum E. -/
def localProfile : MavProfile :=
  { includes := ["inc.xml"],
    enums := [{ name := "E", raw_name := "E", entries := [] }] }

/-- The module cache mapping "inc.xml" to a profile whose enum E has one
unvalued entry. -/
def modulesC6 : List (String × MavProfile) :=
  [("inc.xml", { enums := [includedEnumE] })]

/-- The same cache with the included entry explicitly valued. -/
def modulesC6v : List (String × MavProfile) :=
  [("inc.xml",
    { enums := [{ name := "E", raw_name := "E",
                  entries := [{ name := "X", raw_name := "X",
                                value := some 3 }] }] })]

/-- The profile obtained by merging `modulesC6v` into `localProfile`
once: the valued included entry has been appended to the local enum E. -/
def vMergedOnce : MavProfile :=
  { includes := ["inc.xml"],
    enums := [{ name := "E", raw_name := "E",
                entries := [{ name := "X", raw_name := "X",
                              value := some 3 }] }] }

/-- A dialect directory in which every file parses to the empty
profile. -/
def constantFS : String → MavProfile := fun _ => {}

/-- An enum with one valued and one unvalued entry (a mixed enum). -/
def mixedEnum : MavEnum :=
  { name := "M", raw_name := "M",
    entries := [{ name := "A", raw_name := "A", value := some 5 },
                { name := "B", raw_name := "B" }] }

/-! ## Byte-level lemmas -/

theorem toLE_length (w v : Nat) : (toLE w v).length = w := by
  induction w generalizing v with
  | zero => rfl
  | succ w ih => simp [toLE, ih]

theorem fromLE_toLE (w v : Nat) (h : v < 256 ^ w) : fromLE (toLE w v) = v := by
  induction w generalizing v with
  | zero => simp [toLE, fromLE]; omega
  | succ w ih =>
    rw [pow_succ] at h
    simp only [toLE, fromLE]
    rw [ih (v / 256) (by omega)]
    omega

theorem encInt_lt (w : Nat) (v : Int) : encInt w v < 256 ^ w := by
  unfold encInt
  generalize hm : (256 : Nat) ^ w = m
  have h0 : (0 : Int) < (m : Int) := by
    have : 0 < m := hm ▸ Nat.pos_pow_of_pos w (by norm_num)
    omega
  have h1 := Int.emod_lt_of_pos v h0
  have h2 := Int.emod_nonneg v (b := (m : Int)) (by omega)
  omega

theorem decInt_encInt (w : Nat) (v : Int) (hw : w ≠ 0)
    (h1 : -((256 ^ w / 2 : Nat) : Int) ≤ v)
    (h2 : v < ((256 ^ w / 2 : Nat) : Int)) :
    decInt w (encInt w v) = v := by
  have hdvd : (2 : Nat) ∣ 256 ^ w := dvd_trans ⟨128, rfl⟩ (dvd_pow_self 256 hw)
  unfold encInt decInt
  generalize hmeq : (256 : Nat) ^ w = m at *
  have hm : m = 2 * (m / 2) := (Nat.mul_div_cancel' hdvd).symm
  rcases le_or_lt 0 v with hv | hv
  · rw [Int.emod_eq_of_lt hv (by omega)]
    rw [if_pos (by omega)]
    omega
  · have h3 : v % (m : Int) = v + (m : Int) := by
      have h4 := Int.add_mul_emod_self_left (a := v) (b := (m : Int)) (c := 1)
      rw [mul_one] at h4
      rw [← h4, Int.emod_eq_of_lt (by omega) (by omega)]
    rw [h3, if_neg (by omega)]
    omega

theorem decInt_small (w u : Nat) (h : 2 * u < 256 ^ w) : decInt w u = u := by
  unfold decInt
  rw [if_pos h]

theorem readU_exact (w : Nat) (bs rest : List Nat) (h : bs.length = w) :
    readU w (bs ++ rest) = some (fromLE bs, rest) := by
  unfold readU
  rw [if_pos (by simp [h])]
  rw [List.take_append_of_le_length (by omega), List.drop_append_of_le_length (by omega)]
  rw [← h, List.take_length, List.drop_length, List.nil_append]

/-! ## Writer/reader round-trip lemmas -/

theorem flatten_map_length_const (f : MavValue → List Nat) (c : Nat) :
    ∀ (xs : List MavValue), (∀ x ∈ xs, (f x).length = c) →
    ((xs.map f).flatten).length = c * xs.length := by
  intro xs
  induction xs with
  | nil => simp
  | cons x xs ih =>
    intro h
    simp only [List.map_cons, List.flatten_cons, List.length_append,
      List.length_cons]
    rw [h x (by simp), ih (fun y hy => h y (by simp [hy]))]
    ring

theorem writeType_length (t : MavType) (v : MavValue)
    (h : typeDomain t v = true) : (writeType t v).length = t.len := by
  induction t generalizing v with
  | Array t n ih =>
    cases v with
    | natv v => simp [typeDomain] at h
    | intv v => simp [typeDomain] at h
    | arrv xs =>
      simp only [typeDomain, Bool.and_eq_true, beq_iff_eq,
        List.all_eq_true] at h
      simp only [writeType, MavType.len]
      rw [flatten_map_length_const _ t.len xs (fun x hx => ih x (h.2 x hx)),
        h.1]
  | _ =>
    cases v <;>
      simp_all [typeDomain, writeType, toLE_length, MavType.len]

theorem readType_writeType (t : MavType) (v : MavValue) (rest : List Nat)
    (h : typeDomain t v = true) :
    readType t (writeType t v ++ rest) = some (v, rest) := by
  induction t generalizing v rest with
  | Array t n ih =>
    cases v with
    | natv v => simp [typeDomain] at h
    | intv v => simp [typeDomain] at h
    | arrv xs =>
      simp only [typeDomain, Bool.and_eq_true, beq_iff_eq,
        List.all_eq_true] at h
      obtain ⟨hlen, hall⟩ := h
      subst hlen
      simp only [writeType, readType]
      suffices hn : ∀ (rest : List Nat),
          readEls (fun b => readType t b) xs.length
              ((xs.map (writeType t ·)).flatten ++ rest)
            = some (xs, rest) by
        rw [hn rest]; rfl
      clear rest
      induction xs with
      | nil => intro rest; simp [readEls]
      | cons x xs ihx =>
        intro rest
        have h1 := ih x (((xs.map (writeType t ·)).flatten) ++ rest)
          (hall x (by simp))
        have h2 := ihx (fun y hy => hall y (by simp [hy])) rest
        simp [readEls, h1, h2]
  | Int8 =>
    cases v <;> simp [typeDomain] at h
    obtain ⟨h1, h2⟩ := h
    simp only [writeType, readType]
    rw [readU_exact _ _ rest (toLE_length _ _), Option.map_some',
      fromLE_toLE _ _ (encInt_lt _ _), decInt_encInt _ _ (by norm_num)
        (by simpa using h1) (by simpa using h2)]
  | Int16 =>
    cases v <;> simp [typeDomain] at h
    obtain ⟨h1, h2⟩ := h
    simp only [writeType, readType]
    rw [readU_exact _ _ rest (toLE_length _ _), Option.map_some',
      fromLE_toLE _ _ (encInt_lt _ _), decInt_encInt _ _ (by norm_num)
        (by simpa using h1) (by simpa using h2)]
  | Int32 =>
    cases v <;> simp [typeDomain] at h
    obtain ⟨h1, h2⟩ := h
    simp only [writeType, readType]
    rw [readU_exact _ _ rest (toLE_length _ _), Option.map_some',
      fromLE_toLE _ _ (encInt_lt _ _), decInt_encInt _ _ (by norm_num)
        (by simpa using h1) (by simpa using h2)]
  | Int64 =>
    cases v <;> simp [typeDomain] at h
    obtain ⟨h1, h2⟩ := h
    simp only [writeType, readType]
    rw [readU_exact _ _ rest (toLE_length _ _), Option.map_some',
      fromLE_toLE _ _ (encInt_lt _ _), decInt_encInt _ _ (by norm_num)
        (by simpa using h1) (by simpa using h2)]
  | _ =>
    cases v <;> simp [typeDomain] at h <;>
    · simp only [writeType, readType]
      rw [readU_exact _ _ rest (toLE_length _ _), Option.map_some',
        fromLE_toLE _ _ (by simpa using h)]

theorem readEls_rest (rd : List Nat → Option (MavValue × List Nat)) (c : Nat)
    (hrd : ∀ buf v rest, rd buf = some (v, rest) →
      rest.length + c = buf.length) :
    ∀ (n : Nat) (buf : List Nat) vs rest, readEls rd n buf = some (vs, rest) →
      rest.length + c * n = buf.length := by
  intro n
  induction n with
  | zero =>
    intro buf vs rest h
    simp only [readEls, Option.some.injEq, Prod.mk.injEq] at h
    simp [← h.2]
  | succ n ihn =>
    intro buf vs rest h
    cases hr : rd buf with
    | none => simp [readEls, hr] at h
    | some p =>
      obtain ⟨v, rest1⟩ := p
      simp only [readEls, hr] at h
      cases hn : readEls rd n rest1 with
      | none => simp [hn] at h
      | some q =>
        obtain ⟨vs1, rest2⟩ := q
        rw [hn] at h
        simp only [Option.map_some', Option.some.injEq, Prod.mk.injEq] at h
        have e1 := hrd buf v rest1 hr
        have e2 := ihn rest1 vs1 rest2 hn
        rw [← h.2]
        rw [Nat.mul_succ]
        omega

theorem readType_rest (t : MavType) :
    ∀ (buf : List Nat) v rest, readType t buf = some (v, rest) →
      rest.length + t.len = buf.length := by
  induction t with
  | Array t n ih =>
    intro buf v rest h
    simp only [readType] at h
    cases hr : readEls (fun b => readType t b) n buf with
    | none => rw [hr] at h; simp at h
    | some p =>
      rw [hr] at h
      simp only [Option.map_some', Option.some.injEq, Prod.mk.injEq] at h
      have := readEls_rest (fun b => readType t b) t.len
        (fun b v r hb => ih b v r hb) n buf p.1 p.2 (by rw [hr])
      rw [← h.2]
      simpa [MavType.len] using this
  | _ =>
    intro buf v rest h
    simp only [readType, readU] at h
    split at h
    · simp only [Option.map_some', Option.some.injEq, Prod.mk.injEq] at h
      obtain ⟨-, rfl⟩ := h
      simp only [MavType.len, List.length_drop]
      omega
    · simp at h

theorem readEls_total (rd : List Nat → Option (MavValue × List Nat)) (c : Nat)
    (hrd : ∀ buf, c ≤ buf.length → ∃ v rest, rd buf = some (v, rest))
    (hrest : ∀ buf v rest, rd buf = some (v, rest) →
      rest.length + c = buf.length) :
    ∀ (n : Nat) (buf : List Nat), c * n ≤ buf.length →
      ∃ vs rest, readEls rd n buf = some (vs, rest) := by
  intro n
  induction n with
  | zero => intro buf _; exact ⟨[], buf, rfl⟩
  | succ n ihn =>
    intro buf hlen
    rw [Nat.mul_succ] at hlen
    obtain ⟨v, rest, hv⟩ := hrd buf (by omega)
    have hr := hrest buf v rest hv
    obtain ⟨vs, rest2, hvs⟩ := ihn rest (by omega)
    exact ⟨v :: vs, rest2, by simp [readEls, hv, hvs]⟩

theorem readType_total (t : MavType) :
    ∀ (buf : List Nat), t.len ≤ buf.length →
      ∃ v rest, readType t buf = some (v, rest) := by
  induction t with
  | Array t n ih =>
    intro buf hlen
    simp only [MavType.len] at hlen
    obtain ⟨vs, rest, hvs⟩ := readEls_total (fun b => readType t b) t.len
      (fun b hb => ih b hb) (fun b v r hb => readType_rest t b v r hb)
      n buf hlen
    exact ⟨.arrv vs, rest, by simp [readType, hvs]⟩
  | _ =>
    intro buf hlen
    simp only [MavType.len] at hlen
    simp only [readType, readU]
    rw [if_pos hlen]
    exact ⟨_, _, rfl⟩

theorem readEls_append (rd : List Nat → Option (MavValue × List Nat))
    (hrd : ∀ p s v r, rd p = some (v, r) → rd (p ++ s) = some (v, r ++ s)) :
    ∀ (n : Nat) (p s : List Nat) vs r, readEls rd n p = some (vs, r) →
      readEls rd n (p ++ s) = some (vs, r ++ s) := by
  intro n
  induction n with
  | zero =>
    intro p s vs r h
    simp only [readEls, Option.some.injEq, Prod.mk.injEq] at h ⊢
    exact ⟨h.1, by rw [← h.2]⟩
  | succ n ihn =>
    intro p s vs r h
    cases hr : rd p with
    | none => simp [readEls, hr] at h
    | some q =>
      obtain ⟨v, rest1⟩ := q
      simp only [readEls, hr] at h
      cases hn : readEls rd n rest1 with
      | none => simp [hn] at h
      | some w =>
        obtain ⟨vs1, rest2⟩ := w
        rw [hn] at h
        simp only [Option.map_some', Option.some.injEq, Prod.mk.injEq] at h
        simp only [readEls, hrd p s v rest1 hr]
        rw [ihn rest1 s vs1 rest2 hn]
        simp [h.1, ← h.2]

theorem readType_append (t : MavType) :
    ∀ (p s : List Nat) v r, readType t p = some (v, r) →
      readType t (p ++ s) = some (v, r ++ s) := by
  induction t with
  | Array t n ih =>
    intro p s v r h
    simp only [readType] at h ⊢
    cases hr : readEls (fun b => readType t b) n p with
    | none => rw [hr] at h; simp at h
    | some q =>
      rw [hr] at h
      simp only [Option.map_some', Option.some.injEq, Prod.mk.injEq] at h
      rw [readEls_append (fun b => readType t b)
        (fun p s v r hb => ih p s v r hb) n p s q.1 q.2 (by rw [hr])]
      simp [h.1, ← h.2]
  | _ =>
    intro p s v r h
    simp only [readType, readU] at h ⊢
    split at h
    · simp only [Option.map_some', Option.some.injEq, Prod.mk.injEq] at h
      rw [if_pos (by simp; omega)]
      rw [List.take_append_of_le_length (by assumption),
        List.drop_append_of_le_length (by assumption)]
      simp [h.1, ← h.2]
    · simp at h

/-! ## Field-level round trip -/

theorem land_land_self (n a : Nat) : (n &&& a) &&& a = n &&& a := by
  rw [Nat.land_assoc]
  congr 1
  apply Nat.eq_of_testBit_eq
  intro i
  simp [Nat.testBit_land]

theorem writeType_natv_toLE (t : MavType) (h : discCap t ≠ 0) (n : Nat) :
    writeType t (.natv n) = toLE t.len n := by
  cases t <;> simp_all [discCap, writeType, MavType.len]

theorem readType_toLE_unsigned (t : MavType) (hu : isUnsignedKind t = true)
    (n : Nat) (hn : n < discCap t) (rest : List Nat) :
    readType t (toLE t.len n ++ rest) = some (.natv n, rest) := by
  cases t <;> simp [isUnsignedKind] at hu <;>
  · simp only [discCap] at hn
    simp only [readType, MavType.len]
    rw [readU_exact _ _ rest (toLE_length _ _), Option.map_some',
      fromLE_toLE _ _ (by omega)]

theorem deserField_ser (enums : List MavEnum) (f : MavField) (v : MavValue)
    (rest : List Nat) (h : fieldDomain enums f v = true) :
    deserField enums f (serField f v ++ rest) = .ok (v, rest) := by
  obtain ⟨mt, nm, rn, ds, et, ret, dsp, ext⟩ := f
  cases et with
  | none =>
    simp only [fieldDomain] at h
    simp only [deserField, serField]
    simp only [readType_writeType _ _ _ h]
    simp [boxField, Except.map]
  | some ename =>
    cases dsp with
    | some dspv =>
      simp only [fieldDomain] at h
      simp only [deserField, serField]
      simp only [Bool.and_eq_true, beq_iff_eq] at h
      obtain ⟨⟨hdsp, hu⟩, hm⟩ := h
      subst hdsp
      cases hl : lookupEnum enums ename <;> rw [hl] at hm <;>
        cases v <;> try simp at hm
      next e n =>
        obtain ⟨hmask, hcap⟩ := hm
        rw [show writeType mt (.natv n) = toLE mt.len n from
          writeType_natv_toLE mt (by omega) n]
        rw [readType_toLE_unsigned mt hu n hcap rest]
        simp [boxField, Except.map, hl, hmask, land_land_self]
    | none =>
      cases mt with
      | Array t size =>
        simp only [fieldDomain] at h
        simp only [deserField, serField]
        simp only [readType_writeType _ _ _ h]
        simp [boxField, Except.map]
      | Char =>
        simp only [fieldDomain] at h
        cases hl : lookupEnum enums ename <;> rw [hl] at h <;>
          cases v <;> simp [discCap] at h
      | Float =>
        simp only [fieldDomain] at h
        cases hl : lookupEnum enums ename <;> rw [hl] at h <;>
          cases v <;> simp [discCap] at h
      | Double =>
        simp only [fieldDomain] at h
        cases hl : lookupEnum enums ename <;> rw [hl] at h <;>
          cases v <;> simp [discCap] at h
      | Int8 =>
        simp only [fieldDomain] at h
        simp only [deserField, serField]
        cases hl : lookupEnum enums ename <;> rw [hl] at h <;>
          cases v <;> try simp at h
        next e n =>
          simp only [Bool.and_eq_true, decide_eq_true_eq, discCap] at h
          obtain ⟨hmem, hcap⟩ := h
          simp only [writeType, readType, MavType.len]
          rw [readU_exact _ _ rest (toLE_length _ _), Option.map_some',
            fromLE_toLE _ _ (by omega), decInt_small _ _ (by omega)]
          simp [boxField, Except.map, hl, hmem]
      | Int16 =>
        simp only [fieldDomain] at h
        simp only [deserField, serField]
        cases hl : lookupEnum enums ename <;> rw [hl] at h <;>
          cases v <;> try simp at h
        next e n =>
          simp only [Bool.and_eq_true, decide_eq_true_eq, discCap] at h
          obtain ⟨hmem, hcap⟩ := h
          simp only [writeType, readType, MavType.len]
          rw [readU_exact _ _ rest (toLE_length _ _), Option.map_some',
            fromLE_toLE _ _ (by omega), decInt_small _ _ (by omega)]
          simp [boxField, Except.map, hl, hmem]
      | Int32 =>
        simp only [fieldDomain] at h
        simp only [deserField, serField]
        cases hl : lookupEnum enums ename <;> rw [hl] at h <;>
          cases v <;> try simp at h
        next e n =>
          simp only [Bool.and_eq_true, decide_eq_true_eq, discCap] at h
          obtain ⟨hmem, hcap⟩ := h
          simp only [writeType, readType, MavType.len]
          rw [readU_exact _ _ rest (toLE_length _ _), Option.map_some',
            fromLE_toLE _ _ (by omega), decInt_small _ _ (by omega)]
          simp [boxField, Except.map, hl, hmem]
      | Int64 =>
        simp only [fieldDomain] at h
        simp only [deserField, serField]
        cases hl : lookupEnum enums ename <;> rw [hl] at h <;>
          cases v <;> try simp at h
        next e n =>
          simp only [Bool.and_eq_true, decide_eq_true_eq, discCap] at h
          obtain ⟨hmem, hcap⟩ := h
          simp only [writeType, readType, MavType.len]
          rw [readU_exact _ _ rest (toLE_length _ _), Option.map_some',
            fromLE_toLE _ _ (by omega), decInt_small _ _ (by omega)]
          simp [boxField, Except.map, hl, hmem]
      | UInt8 =>
        simp only [fieldDomain] at h
        simp only [deserField, serField]
        cases hl : lookupEnum enums ename <;> rw [hl] at h <;>
          cases v <;> try simp at h
        next e n =>
          simp only [Bool.and_eq_true, decide_eq_true_eq, discCap] at h
          obtain ⟨hmem, hcap⟩ := h
          simp only [writeType, readType, MavType.len]
          rw [readU_exact _ _ rest (toLE_length _ _), Option.map_some',
            fromLE_toLE _ _ (by omega)]
          simp [boxField, Except.map, hl, hmem]
      | UInt8MavlinkVersion =>
        simp only [fieldDomain] at h
        simp only [deserField, serField]
        cases hl : lookupEnum enums ename <;> rw [hl] at h <;>
          cases v <;> try simp at h
        next e n =>
          simp only [Bool.and_eq_true, decide_eq_true_eq, discCap] at h
          obtain ⟨hmem, hcap⟩ := h
          simp only [writeType, readType, MavType.len]
          rw [readU_exact _ _ rest (toLE_length _ _), Option.map_some',
            fromLE_toLE _ _ (by omega)]
          simp [boxField, Except.map, hl, hmem]
      | UInt16 =>
        simp only [fieldDomain] at h
        simp only [deserField, serField]
        cases hl : lookupEnum enums ename <;> rw [hl] at h <;>
          cases v <;> try simp at h
        next e n =>
          simp only [Bool.and_eq_true, decide_eq_true_eq, discCap] at h
          obtain ⟨hmem, hcap⟩ := h
          simp only [writeType, readType, MavType.len]
          rw [readU_exact _ _ rest (toLE_length _ _), Option.map_some',
            fromLE_toLE _ _ (by omega)]
          simp [boxField, Except.map, hl, hmem]
      | UInt32 =>
        simp only [fieldDomain] at h
        simp only [deserField, serField]
        cases hl : lookupEnum enums ename <;> rw [hl] at h <;>
          cases v <;> try simp at h
        next e n =>
          simp only [Bool.and_eq_true, decide_eq_true_eq, discCap] at h
          obtain ⟨hmem, hcap⟩ := h
          simp only [writeType, readType, MavType.len]
          rw [readU_exact _ _ rest (toLE_length _ _), Option.map_some',
            fromLE_toLE _ _ (by omega)]
          simp [boxField, Except.map, hl, hmem]
      | UInt64 =>
        simp only [fieldDomain] at h
        simp only [deserField, serField]
        cases hl : lookupEnum enums ename <;> rw [hl] at h <;>
          cases v <;> try simp at h
        next e n =>
          simp only [Bool.and_eq_true, decide_eq_true_eq, discCap] at h
          obtain ⟨hmem, hcap⟩ := h
          simp only [writeType, readType, MavType.len]
          rw [readU_exact _ _ rest (toLE_length _ _), Option.map_some',
            fromLE_toLE _ _ (by omega)]
          simp [boxField, Except.map, hl, hmem]

/-! ## Structural lemmas for the field and message readers -/

theorem boxField_ne_underflow (enums : List MavEnum) (f : MavField)
    (v0 : MavValue) : boxField enums f v0 ≠ .error .underflow := by
  intro h
  unfold boxField at h
  repeat' split at h
  all_goals simp [ite_eq_iff] at h

theorem deserField_rest (enums : List MavEnum) (f : MavField)
    (buf : List Nat) (v : MavValue) (rest : List Nat)
    (h : deserField enums f buf = .ok (v, rest)) :
    rest.length + f.mavtype.len = buf.length := by
  cases hr : readType f.mavtype buf with
  | none => simp [deserField, hr] at h
  | some p =>
    obtain ⟨v0, r0⟩ := p
    simp only [deserField, hr] at h
    cases hb : boxField enums f v0 with
    | error e => simp [hb, Except.map] at h
    | ok w =>
      simp [hb, Except.map] at h
      rw [← h.2]
      exact readType_rest f.mavtype buf v0 r0 hr

theorem deserField_no_underflow (enums : List MavEnum) (f : MavField)
    (buf : List Nat) (h : f.mavtype.len ≤ buf.length) :
    deserField enums f buf ≠ .error .underflow := by
  obtain ⟨v0, r0, hr⟩ := readType_total f.mavtype buf h
  simp only [deserField, hr]
  cases hb : boxField enums f v0 with
  | error e =>
    have hne := boxField_ne_underflow enums f v0
    rw [hb] at hne
    simpa [Except.map] using hne
  | ok w => simp [Except.map]

theorem deserField_append (enums : List MavEnum) (f : MavField)
    (p s : List Nat) (hlen : f.mavtype.len ≤ p.length) :
    deserField enums f (p ++ s) =
      match deserField enums f p with
      | .ok (v, r) => .ok (v, r ++ s)
      | .error e => .error e := by
  obtain ⟨v0, r0, hr⟩ := readType_total f.mavtype p hlen
  have hr2 := readType_append f.mavtype p s v0 r0 hr
  simp only [deserField, hr, hr2]
  cases hb : boxField enums f v0 <;> simp [Except.map]

theorem fieldDomain_shape (enums : List MavEnum) (f : MavField)
    (v : MavValue) (h : fieldDomain enums f v = true) :
    typeDomain f.mavtype v = true ∨
      ∃ n, v = .natv n ∧ n < discCap f.mavtype := by
  obtain ⟨mt, nm, rn, ds, et, ret, dsp, ext⟩ := f
  cases et with
  | none => left; simpa [fieldDomain] using h
  | some ename =>
    cases dsp with
    | some dspv =>
      simp only [fieldDomain, Bool.and_eq_true, beq_iff_eq] at h
      obtain ⟨⟨hdsp, hu⟩, hm⟩ := h
      cases hl : lookupEnum enums ename <;> rw [hl] at hm <;>
        cases v <;> try simp at hm
      next e n => right; exact ⟨n, rfl, hm.2⟩
    | none =>
      simp only [fieldDomain] at h
      split at h
      · left; exact h
      · cases hl : lookupEnum enums ename <;> rw [hl] at h <;>
          cases v <;> try simp at h
        next e n => right; exact ⟨n, rfl, h.2⟩

theorem serField_length (enums : List MavEnum) (f : MavField) (v : MavValue)
    (h : fieldDomain enums f v = true) :
    (serField f v).length = f.mavtype.len := by
  rcases fieldDomain_shape enums f v h with ht | ⟨n, hv, hcap⟩
  · rw [serField]
    exact writeType_length f.mavtype v ht
  · rw [serField, hv, writeType_natv_toLE f.mavtype (by omega) n, toLE_length]

theorem encodedLen_foldl (l : List MavField) (n : Nat) :
    l.foldl (fun acc f => acc + f.mavtype.len) n
      = n + l.foldl (fun acc f => acc + f.mavtype.len) 0 := by
  induction l generalizing n with
  | nil => simp
  | cons f fs ih =>
    simp only [List.foldl_cons]
    rw [ih (n + f.mavtype.len), ih (0 + f.mavtype.len)]
    omega

theorem encodedLen_cons (f : MavField) (fs : List MavField) :
    encodedLen (f :: fs) = f.mavtype.len + encodedLen fs := by
  simp only [encodedLen, List.foldl_cons]
  rw [encodedLen_foldl fs (0 + f.mavtype.len)]
  omega

theorem deserFields_no_underflow (enums : List MavEnum) :
    ∀ (fields : List MavField) (buf : List Nat),
      encodedLen fields ≤ buf.length →
      deserFields enums fields buf ≠ .error .underflow := by
  intro fields
  induction fields with
  | nil => intro buf _; simp [deserFields]
  | cons f fs ih =>
    intro buf h
    rw [encodedLen_cons] at h
    cases hd : deserField enums f buf with
    | error e =>
      have hne := deserField_no_underflow enums f buf (by omega)
      rw [hd] at hne
      simpa [deserFields, hd] using hne
    | ok p =>
      obtain ⟨v, r⟩ := p
      simp only [deserFields, hd]
      have hrest := deserField_rest enums f buf v r hd
      have h2 := ih r (by omega)
      cases hfs : deserFields enums fs r with
      | error e2 => rw [hfs] at h2; simpa [Except.map] using h2
      | ok vs => simp [hfs, Except.map]

theorem deserFields_append (enums : List MavEnum) :
    ∀ (fields : List MavField) (p s : List Nat),
      encodedLen fields ≤ p.length →
      deserFields enums fields (p ++ s) = deserFields enums fields p := by
  intro fields
  induction fields with
  | nil => intro p s _; simp [deserFields]
  | cons f fs ih =>
    intro p s h
    rw [encodedLen_cons] at h
    have hap := deserField_append enums f p s (by omega)
    cases hd : deserField enums f p with
    | error e =>
      rw [hd] at hap
      simp only [deserFields, hap, hd]
    | ok q =>
      obtain ⟨v, r⟩ := q
      rw [hd] at hap
      simp only [deserFields, hap, hd]
      have hrest := deserField_rest enums f p v r hd
      rw [ih r s (by omega)]

theorem deserFields_ser (enums : List MavEnum) :
    ∀ (fields : List MavField) (vals : List MavValue),
      vals.length = fields.length →
      (∀ p ∈ fields.zip vals, fieldDomain enums p.1 p.2 = true) →
      deserFields enums fields
          (((fields.zip vals).map fun p => serField p.1 p.2).flatten)
        = .ok vals := by
  intro fields
  induction fields with
  | nil =>
    intro vals h _
    cases vals with
    | nil => simp [deserFields]
    | cons v vs => simp at h
  | cons f fs ih =>
    intro vals hlen hdom
    cases vals with
    | nil => simp at hlen
    | cons v vs =>
      simp only [List.zip_cons_cons, List.map_cons, List.flatten_cons]
      have h1 := deserField_ser enums f v
        (((fs.zip vs).map fun p => serField p.1 p.2).flatten)
        (hdom (f, v) (by simp))
      have h2 := ih vs (by simpa using hlen)
        (fun p hp => hdom p (by simp [hp]))
      simp [deserFields, h1, h2, Except.map]

theorem serFields_length (enums : List MavEnum) :
    ∀ (fields : List MavField) (vals : List MavValue),
      vals.length = fields.length →
      (∀ p ∈ fields.zip vals, fieldDomain enums p.1 p.2 = true) →
      (((fields.zip vals).map fun p => serField p.1 p.2).flatten).length
        = encodedLen fields := by
  intro fields
  induction fields with
  | nil => intro vals _ _; simp [encodedLen]
  | cons f fs ih =>
    intro vals hlen hdom
    cases vals with
    | nil => simp at hlen
    | cons v vs =>
      simp only [List.zip_cons_cons, List.map_cons, List.flatten_cons,
        List.length_append]
      rw [encodedLen_cons,
        serField_length enums f v (hdom (f, v) (by simp)),
        ih vs (by simpa using hlen) (fun p hp => hdom p (by simp [hp]))]

/-! ## Schema-enum emission lemmas (for the placeholder claim) -/

/-- Unfolding of a successful `Except.map`. -/
theorem except_map_ok {e a b : Type} (g : a -> b) (x : Except e a) (v : b)
    (h : x.map g = .ok v) : ∃ w, x = .ok w ∧ g w = v := by
  cases x with
  | error msg => simp [Except.map] at h
  | ok w => exact (Exists.intro w (And.intro rfl (by simpa [Except.map] using h)))

/-- Indices produced by `enumFrom n` are at least `n`. -/
theorem enumFrom_fst_le {a : Type} (n : Nat) (l : List a) :
    ∀ p, p ∈ l.enumFrom n -> n <= p.1 := by
  induction l generalizing n with
  | nil => intro p hp; simp [List.enumFrom] at hp
  | cons x xs ih =>
    intro p hp
    rcases List.mem_cons.mp hp with h | h
    · subst h; exact Nat.le_refl n
    · exact Nat.le_of_succ_le (ih (n + 1) p h)

/-- `has_zero` is computed from the entry multiset: sorting does not
change it. -/
theorem protoHasZero_perm (l : List MavEnumEntry) :
    protoHasZero (l.insertionSort protoOrder) = protoHasZero l := by
  unfold protoHasZero
  cases hb : l.any fun f => f.value == some 0 with
  | true =>
    rw [List.any_eq_true] at hb ⊢
    obtain ⟨x, hx, hpx⟩ := hb
    exact ⟨x, (List.perm_insertionSort protoOrder l).mem_iff.mpr hx, hpx⟩
  | false =>
    rw [List.any_eq_false] at hb ⊢
    intro x hx
    exact hb x ((List.perm_insertionSort protoOrder l).mem_iff.mp hx)

/-- `max_val` is computed from the entry multiset: sorting does not
change it. -/
theorem protoMaxVal_perm (l : List MavEnumEntry) :
    protoMaxVal (l.insertionSort protoOrder) = protoMaxVal l := by
  unfold protoMaxVal
  refine (List.perm_insertionSort protoOrder l).foldl_eq' ?_ 0
  intro x _ y _ z
  cases hx : x.value <;> cases hy : y.value <;>
    simp only [hx, hy] <;> (repeat' split) <;> omega

/-- The emission fold started from an error stays that error. -/
theorem protoFold_error (rn : String) (bf hz : Bool) (mv : Nat)
    (msg : String) :
    ∀ (ps : List (Nat × MavEnumEntry)),
      ps.foldl (protoStep rn bf hz mv) (.error msg) = .error msg := by
  intro ps
  induction ps with
  | nil => rfl
  | cons q qs ih =>
    simp only [List.foldl_cons]
    exact ih

/-- The emission fold over pairs whose placeholder condition is false
appends exactly one emitted enumerant per input pair (when it does not
fail). -/
theorem protoFold_no_placeholder (rn : String) (bf hz : Bool) (mv : Nat) :
    ∀ (ps : List (Nat × MavEnumEntry)),
      (∀ p, p ∈ ps ->
        (p.1 == 0 && !hz && decide (mv ≠ 0)) = false) ->
      ∀ (out : List ProtoEntry) (cfl : Bool)
        (res : List ProtoEntry × Bool),
        ps.foldl (protoStep rn bf hz mv) (.ok (out, cfl)) = .ok res ->
        ∃ emitted, res.1 = out ++ emitted ∧
          emitted.length = ps.length := by
  intro ps
  induction ps with
  | nil =>
    intro _ out cfl res h
    simp only [List.foldl_nil, Except.ok.injEq] at h
    exact ⟨[], by simp [← h], by simp⟩
  | cons q qs ih =>
    intro hno out cfl res h
    obtain ⟨i, fld⟩ := q
    have hq : (i == 0 && !hz && decide (mv ≠ 0)) = false :=
      hno (i, fld) (by simp)
    simp only [List.foldl_cons, protoStep, hq, Bool.false_eq_true,
      if_false] at h
    split at h
    · rw [protoFold_error] at h
      simp at h
    · obtain ⟨em, hem, hlen⟩ :=
        ih (fun p hp => hno p (List.mem_cons_of_mem _ hp)) _ _ _ h
      refine ⟨res.1.drop out.length, ?_, ?_⟩
      · rw [hem, List.append_assoc, List.drop_left]
      · rw [hem, List.append_assoc, List.drop_left]
        simp [hlen]

/-! ## Field-decode shape lemmas (for the enum-validation claim) -/

/-- `readType` on an unsigned scalar kind with enough input reads the
little-endian value of the kind-width prefix. -/
theorem readType_unsigned (t : MavType) (hu : isUnsignedKind t = true)
    (buf : List Nat) (hlen : t.len <= buf.length) :
    readType t buf
      = some (.natv (fromLE (buf.take t.len)), buf.drop t.len) := by
  cases t <;> simp [isUnsignedKind] at hu
  all_goals
    simp only [MavType.len] at hlen
    simp [readType, readU, hlen, MavType.len]

/-- Boxing a raw scalar read through a closed (non-bitmask) enum field:
the `FromPrimitive` lookup succeeds exactly when the raw value is among
the enum's assigned values. -/
theorem boxField_closed (enums : List MavEnum) (mt : MavType)
    (hu : isUnsignedKind mt = true) (nm rnm : String)
    (dsc : Option String) (en : String) (ret : Option String) (ext : Bool)
    (e : MavEnum) (he : lookupEnum enums en = some e) (n : Nat) :
    boxField enums ⟨mt, nm, rnm, dsc, some en, ret, none, ext⟩ (.natv n)
      = if (emitDefValues e).contains n then .ok (.natv n)
        else .error (.invalidEnum en n) := by
  cases mt <;> simp [isUnsignedKind] at hu
  all_goals simp [boxField, he]

/-- Boxing a raw scalar read through a bitmask enum field always
succeeds: the raw value is masked with the union of known flags, and the
subsequent `from_bits` check cannot fail on an already-masked value. -/
theorem boxField_bitmask (enums : List MavEnum) (mt : MavType)
    (nm rnm : String) (dsc : Option String) (en : String)
    (ret : Option String) (ext : Bool) (e : MavEnum)
    (he : lookupEnum enums en = some e) (n : Nat) :
    boxField enums ⟨mt, nm, rnm, dsc, some en, ret, some "bitmask", ext⟩
        (.natv n)
      = .ok (.natv (n &&& allBits e)) := by
  simp [boxField, he, land_land_self]

/-- `readType` on a signed scalar kind with enough input reads the
two's-complement reinterpretation of the kind-width little-endian
prefix. -/
theorem readType_signed (t : MavType) (hs : isSignedKind t = true)
    (buf : List Nat) (hlen : t.len ≤ buf.length) :
    readType t buf
      = some (.intv (decInt t.len (fromLE (buf.take t.len))),
          buf.drop t.len) := by
  cases t <;> simp [isSignedKind] at hs
  all_goals
    simp only [MavType.len] at hlen
    simp [readType, readU, hlen, MavType.len]

/-- Boxing a raw signed scalar read through a closed (non-bitmask) enum
field: the `FromPrimitive::from_iNN` lookup succeeds exactly when the
signed value is nonnegative and its magnitude is among the enum's
assigned values; on failure the reported value is the `as u32` wrap of
the signed read. -/
theorem boxField_closed_signed (enums : List MavEnum) (mt : MavType)
    (hs : isSignedKind mt = true) (nm rnm : String)
    (dsc : Option String) (en : String) (ret : Option String) (ext : Bool)
    (e : MavEnum) (he : lookupEnum enums en = some e) (i : Int) :
    boxField enums ⟨mt, nm, rnm, dsc, some en, ret, none, ext⟩ (.intv i)
      = if 0 ≤ i ∧ (emitDefValues e).contains i.toNat
        then .ok (.natv i.toNat)
        else .error (.invalidEnum en (i % (4294967296 : Int)).toNat) := by
  cases mt <;> simp [isSignedKind] at hs
  all_goals simp [boxField, he]

/-! ## Claim theorems -/

set_option maxRecDepth 4000 in
/-- C1: the claim says the compatibility digest starts from the message's
original declared name; the code digests the sanitized CamelCase
identifier instead (`crc.digest(msg.name...)` with
`message.name = rusty_name(raw)`), contradicting the doc comment above
`extra_crc` ("we have to preserve the original uppercase names") and the
MAVLink ecosystem value: on the real HEARTBEAT message the code produces
31 where the claim's algorithm (and every standard MAVLink
implementation) produces 50. -/
theorem C1_extra_crc_digests_sanitized_name :
    extra_crc heartbeat = 31 ∧ extraCrcSpec heartbeat = 50 ∧
    extra_crc heartbeat ≠ extraCrcSpec heartbeat ∧
    heartbeat.name = rusty_name heartbeat.raw_name ∧
    heartbeat.name ≠ heartbeat.raw_name := by
  have hw : (heartbeat.fields.filter fun f => !f.is_extension).insertionSort
      wireOrder
      = [hbFCustom, hbFType, hbFAuto, hbFBase, hbFStatus, hbFVers] := by
    rfl
  have h31 : extra_crc heartbeat = 31 := by
    simp only [extra_crc]
    rw [hw]
    simp only [List.foldl_cons, List.foldl_nil]
    rw [show crcDigest 0xFFFF (strBytes heartbeat.name) = 0x8879
      from by rfl]
    rw [show crcDigest 0x8879 (strBytes " ") = 0xcfcc from by rfl]
    rw [show extraCrcField 0xcfcc hbFCustom = 0xb42d from by rfl]
    rw [show extraCrcField 0xb42d hbFType = 0xa9f8 from by rfl]
    rw [show extraCrcField 0xa9f8 hbFAuto = 0x4bb0 from by rfl]
    rw [show extraCrcField 0x4bb0 hbFBase = 0xf73a from by rfl]
    rw [show extraCrcField 0xf73a hbFStatus = 0xcca5 from by rfl]
    rw [show extraCrcField 0xcca5 hbFVers = 0xd5ca from by rfl]
    decide
  have h50 : extraCrcSpec heartbeat = 50 := by
    simp only [extraCrcSpec]
    rw [hw]
    simp only [List.foldl_cons, List.foldl_nil]
    rw [show crcDigest 0xFFFF (strBytes heartbeat.raw_name) = 0x36a2
      from by rfl]
    rw [show crcDigest 0x36a2 (strBytes " ") = 0xa72c from by rfl]
    rw [show extraCrcFieldSpec 0xa72c hbFCustom = 0x2ad6 from by rfl]
    rw [show extraCrcFieldSpec 0x2ad6 hbFType = 0x76dd from by rfl]
    rw [show extraCrcFieldSpec 0x76dd hbFAuto = 0x31cf from by rfl]
    rw [show extraCrcFieldSpec 0x31cf hbFBase = 0xb9ac from by rfl]
    rw [show extraCrcFieldSpec 0xb9ac hbFStatus = 0x4e50 from by rfl]
    rw [show extraCrcFieldSpec 0x4e50 hbFVers = 0x2c1e from by rfl]
    decide
  refine ⟨h31, h50, ?_, by rfl, by decide⟩
  rw [h31, h50]
  decide

/-- C5 counterexample: with the claim's declared fields (base_mode as
uint32_t) the encoded length is 12, not the claimed 9. -/
theorem C5_encoded_len_not_nine :
    encodedLen heartbeatClaimFields = 12 ∧
    encodedLen heartbeatClaimFields ≠ 9 := by decide

/-- C5 (amended): the planner orders the claim's declared fields as
base_mode, custom_mode, type, autopilot, system_status, mavlink_version
with encoded length 12 (the length 9 of the claim belongs to the real
HEARTBEAT, whose base_mode is uint8_t). -/
theorem C5_heartbeat_plan_order_and_len :
    (planFields heartbeatClaimFields).map (fun f => f.raw_name)
      = ["base_mode", "custom_mode", "type", "autopilot", "system_status",
         "mavlink_version"] ∧
    encodedLen heartbeatClaimFields = 12 := by decide

/-- C7: the cache check of `generate` looks up
`to_module_name(definition_file)` (the file stem) but the insertion key
is the raw file name, so the check never hits: a second `generate` call
for an already-cached "common.xml" re-ingests the file (the ingestion
log grows) instead of returning immediately as the claim (and the
evident intent of the check) requires. -/
theorem C7_generate_cache_key_mismatch :
    to_module_name "common.xml" = "common" ∧
    generateM constantFS 2 "common.xml" ([], [])
      = ([("common.xml", {})], ["common.xml"]) ∧
    ([("common.xml", ({} : MavProfile))]).lookup
        (to_module_name "common.xml") = none ∧
    generateM constantFS 2 "common.xml"
        ([("common.xml", {})], ["common.xml"])
      = ([("common.xml", {})], ["common.xml", "common.xml"]) := by
  refine ⟨by rfl, by rfl, by rfl, by rfl⟩

/-- C10: the native codec backend's `emit_defs` discards all declared
values and assigns sequential synthetic values 0,1,2,... in declaration
order as soon as one entry lacks an explicit value, and uses the declared
values only when every entry carries one (parser.rs 459-487; the copy in
mavlink.rs 366-394 is textually identical). -/
theorem C10_sequential_values_when_any_unvalued (e : MavEnum) :
    (has_enum_values e = false →
      emitDefValues e = List.range e.entries.length)
  ∧ (has_enum_values e = true →
      emitDefValues e = e.entries.map fun ent => ent.value.getD 0)
  ∧ (has_enum_values e = false ↔ ∃ ent ∈ e.entries, ent.value = none) := by
  refine ⟨?_, ?_, ?_⟩
  · intro h
    unfold emitDefValues
    simp only [h, Bool.false_eq_true, if_false]
    have aux : ∀ (l : List MavEnumEntry) (acc : List Nat) (c : Nat),
        (l.foldl (fun acc _ => (acc.1 ++ [acc.2], acc.2 + 1)) (acc, c)).1
          = acc ++ List.range' c l.length := by
      intro l
      induction l with
      | nil => intro acc c; simp
      | cons x xs ih =>
        intro acc c
        simp only [List.foldl_cons, ih, List.length_cons, List.range'_succ,
          List.append_assoc, List.singleton_append]
    rw [aux e.entries [] 0, List.range_eq_range']
    simp
  · intro h
    unfold emitDefValues
    simp only [h, eq_self_iff_true, if_true]
    have aux : ∀ (l : List MavEnumEntry) (acc : List Nat) (c : Nat),
        (l.foldl (fun acc ent => (acc.1 ++ [ent.value.getD 0], acc.2))
            (acc, c)).1
          = acc ++ l.map fun ent => ent.value.getD 0 := by
      intro l
      induction l with
      | nil => intro acc c; simp
      | cons x xs ih =>
        intro acc c
        simp only [List.foldl_cons, ih, List.map_cons, List.append_assoc,
          List.singleton_append]
    rw [aux e.entries [] 0]
    simp
  · simp only [has_enum_values, List.all_eq_false]
    constructor
    · rintro ⟨ent, hent, hv⟩
      refine ⟨ent, hent, ?_⟩
      cases hval : ent.value with
      | none => rfl
      | some v => simp [hval] at hv
    · rintro ⟨ent, hent, hv⟩
      exact ⟨ent, hent, by simp [hv]⟩

/-- C10 witness: the mixed enum (values some 5 and none) is emitted with
sequential values 0, 1 — the declared 5 is discarded. -/
theorem C10_sequential_values_witness :
    emitDefValues mixedEnum = [0, 1] ∧ has_enum_values mixedEnum = false := by
  have h := (C10_sequential_values_when_any_unvalued mixedEnum).1 (by rfl)
  exact ⟨by rw [h]; rfl, by rfl⟩

/-- C6 counterexample: merging an included enum whose entry lacks a value
is not idempotent — a second merge appends the entry again, because an
unvalued entry never registers as "present" in the local entry list
(enum_contains skips entries whose value is None). -/
theorem C6_merge_twice_duplicates_entry :
    (merge_enums localProfile modulesC6).map
        (fun p => p.enums.map fun e => e.entries.length) = some [1] ∧
    ((merge_enums localProfile modulesC6).bind
        (fun p => merge_enums p modulesC6)).map
        (fun p => p.enums.map fun e => e.entries.length) = some [2] ∧
    ((1 : Nat) ≠ 2) := by
  refine ⟨by rfl, by rfl, by decide⟩

/-- C8 counterexample: an enum none of whose entries carries an explicit
value (so in particular none carries explicit value 0) is emitted with no
synthesized placeholder — the code additionally requires a nonzero
maximum explicit value before synthesizing one. -/
theorem C8_unvalued_enum_gets_no_placeholder :
    emitProtoEnum enAllNone
      = .ok [⟨"A", 0, false⟩, ⟨"B", 1, false⟩] ∧
    (∀ ent ∈ enAllNone.entries, ent.value ≠ some 0) ∧
    (∀ pe ∈ [(⟨"A", 0, false⟩ : ProtoEntry), ⟨"B", 1, false⟩],
      pe.name ≠ enAllNone.raw_name ++ "_UNDEFINED") := by
  refine ⟨by rfl, by decide, by decide⟩

/-- C9 counterexample: an enum-typed array field is decoded as a raw
array with no enumerant validation: enum E9 is not a flag-set enum and
the wire value 0 matches none of its entries, yet decoding succeeds. -/
theorem C9_array_enum_decodes_without_validation :
    deserField [enum9] fld9 [0, 0] = .ok (.arrv [.natv 0, .natv 0], []) ∧
    (emitDefValues enum9).contains 0 = false ∧
    enum9.bitfield = none ∧ fld9.enumtype = some "E9" ∧
    (∀ err, deserField [enum9] fld9 [0, 0] ≠ .error err) := by
  refine ⟨by rfl, by rfl, by rfl, by rfl, ?_⟩
  intro err h
  rw [show deserField [enum9] fld9 [0, 0]
    = .ok (.arrv [.natv 0, .natv 0], []) from by rfl] at h
  simp at h

/-- C4 counterexample: deserializing a non-empty byte slice shorter than
the message's encoded length does not always succeed: the missing bytes
are zero-filled and the trailing enum field then fails the enumerant
lookup at raw value 0, which is not an entry of enum E9. -/
theorem C4_short_nonempty_input_can_fail :
    0 < ([7] : List Nat).length ∧
    ([7] : List Nat).length < encodedLen msg4.fields ∧
    deserMessage [enum9] msg4 [7] = .error (.invalidEnum "E9" 0) := by
  refine ⟨by decide, by decide, by rfl⟩

/-- C2: the planner splits the declared fields into the non-extension
and extension groups preserving relative order, stably sorts only the
non-extension group by descending element width, and appends the
extension fields unsorted: the planned list is a permutation of the
declared fields consisting of a descending-width permutation of the
non-extension group followed by the extension group in declaration
order, and fields of equal width keep their relative declaration order
(the width-w subsequence of the sorted group equals the width-w
subsequence of the declared non-extension group, for every w). -/
theorem C2_plan_splits_sorts_stably (fields : List MavField) :
    List.Perm (planFields fields) fields
  ∧ ∃ ns, planFields fields = ns ++ fields.filter (fun f => f.is_extension)
      ∧ List.Perm ns (fields.filter (fun f => !f.is_extension))
      ∧ ns.Pairwise
          (fun a b => b.mavtype.order_len ≤ a.mavtype.order_len)
      ∧ ∀ w, ns.filter (fun f => f.mavtype.order_len == w)
          = (fields.filter fun f => !f.is_extension).filter
              (fun f => f.mavtype.order_len == w) := by
  have hperm : List.Perm
      ((fields.filter fun f => !f.is_extension).insertionSort wireOrder)
      (fields.filter fun f => !f.is_extension) :=
    List.perm_insertionSort wireOrder _
  have hsorted : ((fields.filter fun f => !f.is_extension).insertionSort
        wireOrder).Pairwise wireOrder :=
    List.sorted_insertionSort wireOrder _
  refine ⟨?_, (fields.filter fun f => !f.is_extension).insertionSort
    wireOrder, ?_, hperm, ?_, ?_⟩
  · refine List.Perm.trans (hperm.append_right _) ?_
    have h2 : fields.filter (fun f => f.is_extension)
        = fields.filter (fun f => !!f.is_extension) :=
      List.filter_congr (fun x _ => by simp)
    rw [h2]
    exact List.filter_append_perm _ fields
  · rfl
  · exact hsorted.imp fun h => by
      simpa [wireOrder, wireLe] using h
  · intro w
    have hmem : ∀ x ∈ (fields.filter fun f => !f.is_extension).filter
        (fun f => f.mavtype.order_len == w),
        (fun f : MavField => f.mavtype.order_len == w) x = true :=
      fun x hx => (List.mem_filter.mp hx).2
    have hpair : ((fields.filter fun f => !f.is_extension).filter
        (fun f => f.mavtype.order_len == w)).Pairwise wireOrder := by
      apply List.pairwise_of_forall_mem_list
      intro a ha b hb
      have ha' := (List.mem_filter.mp ha).2
      have hb' := (List.mem_filter.mp hb).2
      simp only [beq_iff_eq] at ha' hb'
      simp only [wireOrder, wireLe, decide_eq_true_eq]
      omega
    have hsub : List.Sublist
        ((fields.filter fun f => !f.is_extension).filter
          (fun f => f.mavtype.order_len == w))
        ((fields.filter fun f => !f.is_extension).insertionSort
          wireOrder) :=
      List.sublist_insertionSort hpair (List.filter_sublist _)
    have hsub2 := hsub.filter (fun f => f.mavtype.order_len == w)
    rw [List.filter_eq_self.mpr hmem] at hsub2
    have hperm2 := hperm.filter (fun f => f.mavtype.order_len == w)
    exact (hsub2.eq_of_length (by rw [hperm2.length_eq])).symm

/-- C3: serialize-then-deserialize is the identity on message values
whose fields all lie in their types' domains: for any enum environment
and message, if the value list matches the field list and every
(field, value) pair is in the field's domain, decoding the encoded bytes
returns exactly the original values (scalar fields by value, array and
text fields element by element). -/
theorem C3_serialize_deserialize_roundtrip (enums : List MavEnum)
    (m : MavMessage) (vals : List MavValue)
    (hlen : vals.length = m.fields.length)
    (hdom : (m.fields.zip vals).all
      (fun p => fieldDomain enums p.1 p.2) = true) :
    deserMessage enums m (serMessage m vals) = .ok vals := by
  have hdom' : ∀ p ∈ m.fields.zip vals, fieldDomain enums p.1 p.2 = true :=
    by simpa [List.all_eq_true] using hdom
  by_cases hemp : m.fields.isEmpty
  · have hnil : m.fields = [] := by
      cases hf : m.fields with
      | nil => rfl
      | cons f fs => rw [hf] at hemp; simp at hemp
    have hvnil : vals = [] := by
      rw [hnil] at hlen
      cases vals with
      | nil => rfl
      | cons v vs => simp at hlen
    simp [deserMessage, hemp, hvnil]
  · have hslen : (serMessage m vals).length = encodedLen m.fields :=
      serFields_length enums m.fields vals hlen hdom'
    simp only [deserMessage, hemp, if_false, Bool.false_eq_true]
    rw [if_neg (by rw [hslen]; omega)]
    exact deserFields_ser enums m.fields vals hlen hdom'

/-- C3 witness: the specification's HEARTBEAT scenario round-trips: the
wire-ordered HEARTBEAT with custom_mode 5, type 2, autopilot 3,
base_mode 0x59, system_status 3, mavlink_version 3 decodes from its own
encoding back to the same values. -/
theorem C3_serialize_deserialize_roundtrip_witness :
    deserMessage hbEnums heartbeatWire (serMessage heartbeatWire hbVals)
      = .ok hbVals :=
  C3_serialize_deserialize_roundtrip hbEnums heartbeatWire hbVals
    (by rfl) (by rfl)

/-- The serialized HEARTBEAT scenario is exactly the 9-byte sequence
05 00 00 00 02 03 59 03 03 given in the specification. -/
theorem serMessage_heartbeat_bytes :
    serMessage heartbeatWire hbVals
      = [0x05, 0x00, 0x00, 0x00, 0x02, 0x03, 0x59, 0x03, 0x03] := by
  rfl

/-- C4 (amended): a non-empty input shorter than the encoded length is
decoded exactly as if it were zero-extended to the encoded length — the
short length itself never causes an error (the decode never underflows),
though decoding the zero-filled tail may still fail an enumerant lookup;
an input at least as long as the encoded length decodes identically to
its encoded-length prefix, with trailing bytes ignored; and a message
with no fields decodes to the all-default value from any input,
including the empty slice. -/
theorem C4_truncation_tolerance_amended (enums : List MavEnum)
    (m : MavMessage) (input : List Nat) :
    (m.fields ≠ [] → 0 < input.length →
      input.length < encodedLen m.fields →
      deserMessage enums m input
          = deserFields enums m.fields
              (input ++ List.replicate (encodedLen m.fields
                - input.length) 0)
        ∧ deserMessage enums m input ≠ .error .underflow)
  ∧ (encodedLen m.fields ≤ input.length →
      deserMessage enums m input
        = deserMessage enums m (input.take (encodedLen m.fields)))
  ∧ (m.fields = [] → deserMessage enums m input = .ok []) := by
  refine ⟨?_, ?_, ?_⟩
  · intro hne hpos hlt
    have hemp : m.fields.isEmpty = false := by
      cases hf : m.fields with
      | nil => exact absurd hf hne
      | cons f fs => simp
    constructor
    · simp only [deserMessage, hemp, Bool.false_eq_true, if_false]
      rw [if_pos hlt]
    · simp only [deserMessage, hemp, Bool.false_eq_true, if_false]
      rw [if_pos hlt]
      apply deserFields_no_underflow
      simp only [List.length_append, List.length_replicate]
      omega
  · intro hge
    by_cases hemp : m.fields.isEmpty
    · simp [deserMessage, hemp]
    · have htlen : (input.take (encodedLen m.fields)).length
          = encodedLen m.fields := by
        simp only [List.length_take]
        omega
      simp only [deserMessage, hemp, Bool.false_eq_true, if_false]
      rw [if_neg (by omega), if_neg (by omega)]
      calc deserFields enums m.fields input
          = deserFields enums m.fields
              (input.take (encodedLen m.fields)
                ++ input.drop (encodedLen m.fields)) := by
            rw [List.take_append_drop]
        _ = deserFields enums m.fields
              (input.take (encodedLen m.fields)) :=
            deserFields_append enums m.fields _ _ (by omega)
  · intro hnil
    simp [deserMessage, hnil]

/-- C4 witness: on the two-byte message msg4 the one-byte input [7] is
decoded as the zero-extended buffer [7, 0] and does not underflow. -/
theorem C4_truncation_tolerance_amended_witness :
    deserMessage [enum9] msg4 [7]
        = deserFields [enum9] msg4.fields [7, 0]
      ∧ deserMessage [enum9] msg4 [7] ≠ .error .underflow := by
  have h := (C4_truncation_tolerance_amended [enum9] msg4 [7]).1
    (by decide) (by decide) (by decide)
  exact ⟨by rw [h.1]; rfl, h.2⟩

/-- When every included entry carries an explicit value, nothing is
contributed to an already-merged entry list: every candidate entry's
value is already present (either it was present before the merge, or the
entry itself was appended by the merge). -/
theorem mergeContrib_merged_nil (modules : List (String × MavProfile))
    (includes : List String) (nm : String) (es : List MavEnumEntry)
    (hall : ∀ inc ∈ includes,
      ∀ e2 ∈ ((modules.lookup inc).getD {}).enums,
      ∀ ent ∈ e2.entries, ent.value.isSome = true) :
    mergeContrib modules includes nm
      (es ++ mergeContrib modules includes nm es) = [] := by
  rw [mergeContrib, List.flatMap_eq_nil_iff]
  intro inc hinc
  rw [List.flatMap_eq_nil_iff]
  intro e2 he2
  by_cases hname : (nm == e2.name) = true
  · rw [if_pos hname, missingFrom, List.filter_eq_nil_iff]
    intro ent hent
    obtain ⟨v, hv⟩ := Option.isSome_iff_exists.mp
      (hall inc hinc e2 he2 ent hent)
    simp only [hv, Option.getD_some, Bool.not_eq_true', Bool.not_eq_false]
    rw [enum_contains, List.any_append]
    by_cases hloc : enum_contains es v = true
    · rw [enum_contains] at hloc
      simp [hloc]
    · have hmem : ent ∈ mergeContrib modules includes nm es := by
        rw [mergeContrib, List.mem_flatMap]
        refine ⟨inc, hinc, ?_⟩
        rw [List.mem_flatMap]
        refine ⟨e2, he2, ?_⟩
        rw [if_pos hname, missingFrom, List.mem_filter]
        refine ⟨hent, ?_⟩
        simp only [hv, Option.getD_some, Bool.not_eq_true']
        simpa using hloc
      have hany : (mergeContrib modules includes nm es).any
          (fun e => e.value == some v) = true := by
        rw [List.any_eq_true]
        exact ⟨ent, hmem, by simp [hv]⟩
      simp [hany]
  · rw [if_neg hname]

/-- C6 (amended): enum merging is idempotent provided every entry of
every included module's enums carries an explicit value — merging the
merged profile again changes nothing.  (Without that proviso an unvalued
included entry is re-appended by every merge whenever no local entry
carries explicit value 0, because an entry with no value never registers
as present; the counterexample exhibits the duplication.) -/
theorem C6_merge_idempotent_amended (profile : MavProfile)
    (modules : List (String × MavProfile)) (p1 : MavProfile)
    (hall : ∀ inc ∈ profile.includes,
      ∀ e2 ∈ ((modules.lookup inc).getD {}).enums,
      ∀ ent ∈ e2.entries, ent.value.isSome = true)
    (h1 : merge_enums profile modules = some p1) :
    merge_enums p1 modules = some p1 := by
  unfold merge_enums at h1
  split at h1
  case isFalse => simp at h1
  case isTrue hc =>
    simp only [Option.some.injEq] at h1
    subst h1
    unfold merge_enums
    rw [show ({ profile with
        enums := profile.enums.map (mergeEnum modules profile.includes) }
          : MavProfile).includes = profile.includes from rfl]
    rw [if_pos hc]
    simp only [Option.some.injEq, MavProfile.mk.injEq]
    refine ⟨trivial, trivial, ?_⟩
    show (profile.enums.map (mergeEnum modules profile.includes)).map
        (mergeEnum modules profile.includes)
      = profile.enums.map (mergeEnum modules profile.includes)
    rw [List.map_map]
    apply List.map_congr_left
    intro ev hev
    show mergeEnum modules profile.includes
        (mergeEnum modules profile.includes ev)
      = mergeEnum modules profile.includes ev
    unfold mergeEnum
    simp only [MavEnum.mk.injEq]
    refine ⟨trivial, trivial, trivial, ?_, trivial⟩
    show (ev.entries ++ mergeContrib modules profile.includes ev.name
          ev.entries)
        ++ mergeContrib modules profile.includes ev.name
          (ev.entries ++ mergeContrib modules profile.includes ev.name
            ev.entries)
      = ev.entries ++ mergeContrib modules profile.includes ev.name
          ev.entries
    rw [mergeContrib_merged_nil modules profile.includes ev.name
      ev.entries hall, List.append_nil]

/-- C6 witness for the amended claim: with the included entry explicitly
valued, merging once yields vMergedOnce and merging again leaves it
unchanged. -/
theorem C6_merge_idempotent_amended_witness :
    merge_enums localProfile modulesC6v = some vMergedOnce ∧
    merge_enums vMergedOnce modulesC6v = some vMergedOnce := by
  refine ⟨by rfl, ?_⟩
  exact C6_merge_idempotent_amended localProfile modulesC6v vMergedOnce
    (by decide) (by rfl)

/-- C8 (amended): the schema backend synthesizes the zero-valued
placeholder entry (named `<RAW_NAME>_UNDEFINED`, emitted first) exactly
when the enum has no entry with explicit value 0 AND some entry has a
nonzero explicit value (`max_val != 0`): with the placeholder the output
has one entry more than the enum, without it (in particular for an enum
none of whose entries carries any explicit value) it has exactly one
output entry per enum entry. -/
theorem C8_placeholder_iff_no_zero_and_nonzero_max (e : MavEnum)
    (out : List ProtoEntry) (hok : emitProtoEnum e = .ok out) :
    (protoHasZero e.entries = false ∧ protoMaxVal e.entries ≠ 0 →
      out.length = e.entries.length + 1 ∧
      out.head? = some ⟨e.raw_name ++ "_UNDEFINED", 0, false⟩)
  ∧ (protoHasZero e.entries = true ∨ protoMaxVal e.entries = 0 →
      out.length = e.entries.length) := by
  have hsl : (e.entries.insertionSort protoOrder).length
      = e.entries.length :=
    (List.perm_insertionSort protoOrder e.entries).length_eq
  unfold emitProtoEnum at hok
  obtain ⟨pr, hpr, hres⟩ := except_map_ok Prod.fst _ _ hok
  subst hres
  constructor
  · rintro ⟨hz0, hmv0⟩
    have hz0' : protoHasZero (e.entries.insertionSort protoOrder)
        = false := by
      rw [protoHasZero_perm]; exact hz0
    have hmv0' : protoMaxVal (e.entries.insertionSort protoOrder) ≠ 0 := by
      rw [protoMaxVal_perm]; exact hmv0
    cases hs : e.entries.insertionSort protoOrder with
    | nil =>
      rw [hs] at hmv0'
      exact absurd rfl hmv0'
    | cons c cs =>
      rw [hs] at hpr hz0' hmv0'
      have hd : decide (protoMaxVal (c :: cs) ≠ 0) = true :=
        decide_eq_true hmv0'
      have henum : (c :: cs).enum = (0, c) :: cs.enumFrom 1 := rfl
      rw [henum, List.foldl_cons] at hpr
      simp only [protoStep, hz0', hd, beq_self_eq_true, Bool.not_false,
        Bool.true_and, Bool.and_self, Bool.and_true, if_true,
        List.nil_append] at hpr
      split at hpr
      · rw [protoFold_error] at hpr
        simp at hpr
      · have hno : ∀ p, p ∈ cs.enumFrom 1 →
            (p.1 == 0 && !false &&
              decide (protoMaxVal (c :: cs) ≠ 0)) = false := by
          intro p hp
          have h1 := enumFrom_fst_le 1 cs p hp
          have h2 : (p.1 == 0) = false :=
            beq_eq_false_iff_ne.mpr (by omega)
          simp [h2]
        obtain ⟨em, hem, hlen⟩ :=
          protoFold_no_placeholder _ _ _ _ _ hno _ _ _ hpr
        have hcs : e.entries.length = cs.length + 1 := by
          rw [← hsl, hs]
          simp
        constructor
        · rw [hem]
          simp only [List.length_append, List.length_cons,
            List.length_nil, List.enumFrom_length] at hlen ⊢
          omega
        · rw [hem]
          simp
  · intro hcond
    have hno : ∀ p, p ∈ (e.entries.insertionSort protoOrder).enum →
        (p.1 == 0 &&
          !protoHasZero (e.entries.insertionSort protoOrder) &&
          decide (protoMaxVal (e.entries.insertionSort protoOrder) ≠ 0))
          = false := by
      intro p _
      rcases hcond with hz1 | hmv1
      · simp [protoHasZero_perm, hz1]
      · simp [protoMaxVal_perm, hmv1]
    obtain ⟨em, hem, hlen⟩ :=
      protoFold_no_placeholder _ _ _ _ _ hno _ _ _ hpr
    rw [hem]
    simpa [List.enum_length, hsl] using hlen

/-- C8 witness for the amended claim: the enum with explicit nonzero
values 1 and 5 and no zero entry is emitted with the placeholder first
and three entries in total. -/
theorem C8_placeholder_amended_witness :
    emitProtoEnum enNoZero = .ok
      [⟨"G_UNDEFINED", 0, false⟩, ⟨"A", 1, false⟩, ⟨"B", 5, false⟩] ∧
    ([(⟨"G_UNDEFINED", 0, false⟩ : ProtoEntry), ⟨"A", 1, false⟩,
        ⟨"B", 5, false⟩].length = enNoZero.entries.length + 1 ∧
      ([(⟨"G_UNDEFINED", 0, false⟩ : ProtoEntry), ⟨"A", 1, false⟩,
        ⟨"B", 5, false⟩].head?
        = some ⟨enNoZero.raw_name ++ "_UNDEFINED", 0, false⟩)) := by
  refine ⟨by rfl, ?_⟩
  exact (C8_placeholder_iff_no_zero_and_nonzero_max enNoZero
      [⟨"G_UNDEFINED", 0, false⟩, ⟨"A", 1, false⟩, ⟨"B", 5, false⟩]
      (by rfl)).1 ⟨by rfl, by decide⟩

/-- C9 (amended): for a scalar field carrying a closed (non-bitmask)
enum, decoding fails with the invalid-enumerant error exactly when the
raw wire value is not among the enum's assigned values — on an unsigned
primitive the raw unsigned read is looked up directly, on a signed
primitive the two's-complement read matches exactly when it is
nonnegative and its magnitude is assigned (so a negative read always
fails, reported as its u32 wrap); a bitmask field always decodes
successfully by masking against the union of known flags; but for an
enum-typed ARRAY field the raw array is decoded with no enumerant
validation at all, so the claim's "fails if and only if the enum is not
a flag-set enum and the value matches no entry" does not extend to
array fields. -/
theorem C9_enum_validation_amended (enums : List MavEnum) (f : MavField)
    (en : String) (e : MavEnum) (buf : List Nat)
    (hen : f.enumtype = some en) (hlook : lookupEnum enums en = some e)
    (hlen : f.mavtype.len ≤ buf.length) :
    (f.display = none → isUnsignedKind f.mavtype = true →
      deserField enums f buf
        = if (emitDefValues e).contains (fromLE (buf.take f.mavtype.len))
          then .ok (.natv (fromLE (buf.take f.mavtype.len)),
            buf.drop f.mavtype.len)
          else .error (.invalidEnum en
            (fromLE (buf.take f.mavtype.len))))
  ∧ (f.display = none → isSignedKind f.mavtype = true →
      deserField enums f buf
        = if 0 ≤ decInt f.mavtype.len (fromLE (buf.take f.mavtype.len)) ∧
            (emitDefValues e).contains
              (decInt f.mavtype.len
                (fromLE (buf.take f.mavtype.len))).toNat
          then .ok (.natv (decInt f.mavtype.len
              (fromLE (buf.take f.mavtype.len))).toNat,
            buf.drop f.mavtype.len)
          else .error (.invalidEnum en
            ((decInt f.mavtype.len (fromLE (buf.take f.mavtype.len)))
              % (4294967296 : Int)).toNat))
  ∧ (f.display = some "bitmask" → isUnsignedKind f.mavtype = true →
      deserField enums f buf
        = .ok (.natv (fromLE (buf.take f.mavtype.len) &&& allBits e),
            buf.drop f.mavtype.len))
  ∧ (∀ t size, f.display = none → f.mavtype = .Array t size →
      deserField enums f buf
          = (readType f.mavtype buf).elim (.error .underflow) .ok
        ∧ ∀ n, deserField enums f buf ≠ .error (.invalidEnum en n)) := by
  obtain ⟨mt, nm, rnm, dsc, et, ret, dsp, ext⟩ := f
  simp only at hen hlook hlen ⊢
  subst hen
  refine ⟨?_, ?_, ?_, ?_⟩
  · intro hdisp hu
    subst hdisp
    have hr := readType_unsigned mt hu buf hlen
    simp only [deserField, hr,
      boxField_closed enums mt hu nm rnm dsc en ret ext e hlook]
    split
    · next hc => simp [Except.map, hc]
    · next hc => simp [Except.map, hc]
  · intro hdisp hs
    subst hdisp
    have hr := readType_signed mt hs buf hlen
    simp only [deserField, hr,
      boxField_closed_signed enums mt hs nm rnm dsc en ret ext e hlook]
    split
    · next hc => simp [Except.map, hc]
    · next hc => simp [Except.map, hc]
  · intro hdisp hu
    subst hdisp
    have hr := readType_unsigned mt hu buf hlen
    simp only [deserField, hr,
      boxField_bitmask enums mt nm rnm dsc en ret ext e hlook,
      Except.map]
  · intro t size hdisp hmt
    subst hdisp
    subst hmt
    constructor
    · cases hr2 : readType (MavType.Array t size) buf with
      | none => simp [deserField, hr2, Option.elim]
      | some p =>
        obtain ⟨v0, rest⟩ := p
        simp [deserField, hr2, boxField, Option.elim, Except.map]
    · intro n hcontra
      cases hr2 : readType (MavType.Array t size) buf with
      | none => simp [deserField, hr2] at hcontra
      | some p =>
        obtain ⟨v0, rest⟩ := p
        simp [deserField, hr2, boxField, Except.map] at hcontra

/-- C9 witness for the amended claim: the unsigned scalar enum field
fld9s decodes assigned value 1 and rejects unassigned value 0 with the
invalid-enumerant error, and the signed scalar enum field fld9i decodes
assigned value 1 and rejects the negative read -1 (wire byte 0xFF) with
the invalid-enumerant error reporting its u32 wrap. -/
theorem C9_enum_validation_amended_witness :
    deserField [enum9] fld9s [1] = .ok (.natv 1, []) ∧
    deserField [enum9] fld9s [0] = .error (.invalidEnum "E9" 0) ∧
    deserField [enum9] fld9i [1] = .ok (.natv 1, []) ∧
    deserField [enum9] fld9i [255]
      = .error (.invalidEnum "E9" 4294967295) := by
  have h1 := (C9_enum_validation_amended [enum9] fld9s "E9" enum9 [1]
    (by rfl) (by rfl) (by decide)).1 (by rfl) (by rfl)
  have h0 := (C9_enum_validation_amended [enum9] fld9s "E9" enum9 [0]
    (by rfl) (by rfl) (by decide)).1 (by rfl) (by rfl)
  have h2 := (C9_enum_validation_amended [enum9] fld9i "E9" enum9 [1]
    (by rfl) (by rfl) (by decide)).2.1 (by rfl) (by rfl)
  have h3 := (C9_enum_validation_amended [enum9] fld9i "E9" enum9 [255]
    (by rfl) (by rfl) (by decide)).2.1 (by rfl) (by rfl)
  refine ⟨?_, ?_, ?_, ?_⟩
  · rw [h1]
    rfl
  · rw [h0]
    rfl
  · rw [h2]
    rfl
  · rw [h3]
    rfl

end ProtoMav
